import Mathlib

/-!
A verification development for the core automaton module `dfa/dfa.py` of the
sjunges/dfa repository: the bit-packed canonical codec (`to_int` / `from_int`),
the boolean combinators, reachable-state search, accepting-word search, and the
associated runtime guards.  Bitarrays are modelled as `List Bool`, most
significant bit first, matching the big-endian default of the `bitarray`
package used by the source.
-/

namespace DfaPy

/-- ba2int: the big-endian value of a bit list (`bitarray.util.ba2int`).  The
library raises a ValueError on an empty bitarray; call sites that can receive
an empty slice go through `ba2intOpt` below. -/
def ba2int (l : List Bool) : Nat :=
  l.foldl (fun a b => 2 * a + b.toNat) 0

/-- ba2int applied to a possibly-empty slice: `none` models the ValueError the
library raises for an empty bitarray. -/
def ba2intOpt (l : List Bool) : Option Nat :=
  if l.isEmpty then none else some (ba2int l)

/-- The fixed-width big-endian digits of `x`: the digit core of
`int2ba(x, length := w)`, which zero-pads `x` to exactly `w` bits. -/
def natToBits : Nat → Nat → List Bool
  | 0, _ => []
  | w + 1, x => natToBits w (x / 2) ++ [x % 2 == 1]

/-- int2ba(v, length := w): the library raises unless `0 < w` (ValueError
for a non-positive length), `0 ≤ v` (ValueError for a negative unsigned
value) and `v < 2 ^ w` (OverflowError when `v` does not fit in `w` bits). -/
def int2ba (v : Int) (w : Nat) : Option (List Bool) :=
  if 0 < w ∧ 0 ≤ v ∧ v < 2 ^ w then some (natToBits w v.toNat) else none

/-- int2ba(v) without a length argument: the minimal-width big-endian bits of
`v`; for `v = 0` the library returns the single bit 0. -/
def int2baMin (v : Nat) : List Bool :=
  if v = 0 then [false] else natToBits (Nat.log2 v + 1) v

/-- bits_needed (dfa.py line 25-26): `0 if n < 2 else len(bin(n - 1)) - 2`;
for `k ≥ 1` the string `bin(k)` has `Nat.size k` binary digits after the
`0b` prefix. -/
def bits_needed (n : Nat) : Nat := if n < 2 then 0 else Nat.size (n - 1)

/-- The minimized, reindexed graph consumed by the encoder: the result of
`dfa2dict(minimize(self), reindex=True)` together with a fixed symbol order.
States are `0 .. n-1` with start state `0`; the `i`-th symbol of the order is
identified with its position `i` (`0 ≤ i < m`), `delta s i` is the successor
of state `s` on the `i`-th symbol, and `label s` its boolean output. -/
structure MinDFA where
  n : Nat
  m : Nat
  label : Nat → Bool
  delta : Nat → Nat → Nat

/-- dfa.py line 72: the accepting states of the reindexed graph. -/
def accepting (G : MinDFA) : Finset Nat :=
  (Finset.range G.n).filter (fun s => G.label s)

/-- dfa.py line 92: encode the rejecting set when `2·|accepting| ≥ n + 1`. -/
def specify_rejecting (G : MinDFA) : Bool :=
  decide (2 * (accepting G).card ≥ G.n + 1)

/-- dfa.py line 93 (the source spells it `indicies`): the state set written
into the encoding. -/
def indicies (G : MinDFA) : Finset Nat :=
  if specify_rejecting G then Finset.range G.n \ accepting G else accepting G

/-- dfa.py lines 108-110: the three fields of one non-stuttering transition. -/
def tripleBits (sb ib : Nat) (s i e : Nat) : Option (List Bool) :=
  match int2ba (s : Int) sb, int2ba (i : Int) ib, int2ba (e : Int) sb with
  | some a, some b, some c => some (a ++ b ++ c)
  | _, _, _ => none

/-- dfa.py lines 102-110: emit the non-stuttering transition triples, states
in ascending order, symbols in ascending position order, self-loops skipped. -/
def transitionsBits (G : MinDFA) (order_len sb ib : Nat) : Option (List Bool) :=
  (List.range G.n).foldlM (fun acc s =>
    (List.range order_len).foldlM (fun acc2 i =>
      if s = G.delta s i then some acc2
      else
        match tripleBits sb ib s i (G.delta s i) with
        | none => none
        | some t => some (acc2 ++ t)) acc) []

/-- dfa.py lines 99-100: the members of the encoded state set, `sb` bits each
(Python iterates a set in unspecified order; the model fixes the ascending
enumeration of the same set, which decode reads back as a set). -/
def indicesBits (G : MinDFA) (sb : Nat) : Option (List Bool) :=
  ((indicies G).sort (· ≤ ·)).foldlM (fun (acc : List Bool) (idx : Nat) =>
    match int2ba (idx : Int) sb with
    | none => none
    | some t => some (acc ++ t)) []

/-- dfa.py lines 74-111, the body of `to_int` after minimization: assemble the
encoding bit list.  `order_len` is `len(input_order)` and `inputs_len` is
`len(self.inputs)`; with the full (default) symbol order both equal `G.m`. -/
def to_int_bits (G : MinDFA) (order_len inputs_len : Nat) : Option (List Bool) := do
  let state_bits := bits_needed G.n
  let input_bits := bits_needed order_len
  let enc1 : List Bool := [true]
  let enc2 ← if state_bits ≠ 0 then
      (int2ba ((2 : Int) ^ state_bits - 1) state_bits).map (enc1 ++ ·)
    else pure enc1
  let enc3 := enc2 ++ [false]
  let enc4 ← if state_bits ≠ 0 then
      (int2ba ((G.n : Int) - 1) state_bits).map (enc3 ++ ·)
    else pure enc3
  let enc5 ← (int2ba ((2 : Int) ^ input_bits - 1) input_bits).map (enc4 ++ ·)
  let enc6 := enc5 ++ [false]
  let enc7 ← (int2ba ((inputs_len : Int) - 1) input_bits).map (enc6 ++ ·)
  let enc8 := enc7 ++ [specify_rejecting G]
  let enc9 ← if state_bits ≠ 0 then
      (int2ba (((indicies G).card : Int) - 1) state_bits).map (enc8 ++ ·)
    else pure enc8
  let enc10 ← (indicesBits G state_bits).map (enc9 ++ ·)
  let enc11 ← (transitionsBits G order_len state_bits input_bits).map (enc10 ++ ·)
  pure enc11

/-- dfa.py line 111: the canonical integer of the minimized graph under the
full canonical symbol order. -/
def MinDFA.to_int (G : MinDFA) : Option Nat :=
  (to_int_bits G G.m G.m).map ba2int

/-- The sub-list of the encoding holding the members of the encoded set. -/
def idxFlat (G : MinDFA) (sb : Nat) : List Bool :=
  ((indicies G).sort (· ≤ ·)).flatMap (fun i => natToBits sb i)

/-- The non-stuttering transition triples in emission order. -/
def transTriples (G : MinDFA) : List (Nat × Nat × Nat) :=
  (List.range G.n).flatMap (fun s =>
    (List.range G.m).filterMap (fun i =>
      if s = G.delta s i then none else some (s, i, G.delta s i)))

/-- The bit fields of one emitted transition triple. -/
def encTriple (sb ib : Nat) (t : Nat × Nat × Nat) : List Bool :=
  natToBits sb t.1 ++ natToBits ib t.2.1 ++ natToBits sb t.2.2

/-- The part of the encoding that follows the set-selection bit: the size and
members of the encoded state set, then the transition triples. -/
def encRest (G : MinDFA) : List Bool :=
  natToBits (bits_needed G.n) ((indicies G).card - 1) ++
    (idxFlat G (bits_needed G.n) ++
      (transTriples G).flatMap (encTriple (bits_needed G.n) (bits_needed G.m)))

/-- The fully-assembled encoding bit list produced by `to_int_bits G G.m G.m`
on a well-formed minimized graph (fields of width 0 are empty lists, matching
the `if state_bits:` guards of the source). -/
def encBody (G : MinDFA) : List Bool :=
  true :: (List.replicate (bits_needed G.n) true ++ false ::
    (natToBits (bits_needed G.n) (G.n - 1) ++
      (List.replicate (bits_needed G.m) true ++ false ::
        (natToBits (bits_needed G.m) (G.m - 1) ++ specify_rejecting G ::
          encRest G))))

/-- The automaton value built by `from_int`: states are natural numbers (the
single-state case of the source uses a Python bool as the state, modelled by
its integer value). -/
structure Decoded where
  start : Nat
  inputs : List Nat
  label : Nat → Bool
  transition : Nat → Nat → Nat

/-- dfa.py lines 145-150: the single-state decode result. -/
def singleStateDFA (sr : Bool) (inputs : List Nat) : Decoded :=
  { start := cond sr 1 0
    inputs := inputs
    label := fun _ => sr
    transition := fun _ _ => cond sr 1 0 }

/-- The header fields `from_int` parses up to and including the set-selection
bit, together with the remaining bits. -/
structure ParsedHeader where
  state_bits : Nat
  n_states : Nat
  input_bits : Nat
  n_inputs : Nat
  inputsList : List Nat
  specify_rejecting : Bool
  rest : List Bool

/-- First index holding bit 0: bitarray's `find(0)`.  The decoder relies on
the delimiter being present; `find` otherwise returns -1 and the negative
slicing that follows never arises for encodings the decoder accepts, so the
missing-delimiter case is modelled as a decode failure. -/
def findZero (l : List Bool) : Option Nat := l.findIdx? (fun b => b == false)

/-- dfa.py lines 113-141: strip the sentinel bit and parse the two width
headers, the state and input counts, the inputs-sequence choice (`range` or
the caller's list, whose length must match the decoded count, line 134), and
the set-selection bit (an index into an empty bitarray raises, hence `none`
on an exhausted stream). -/
def parseHeader (N : Nat) (inputs? : Option (List Nat)) : Option ParsedHeader := do
  let encoding := (int2baMin N).drop 1
  let idx ← findZero encoding
  let state_bits := idx
  let encoding := encoding.drop (idx + 1)
  let (n_states, encoding) ←
    if idx > 0 then
      match ba2intOpt (encoding.take state_bits) with
      | none => none
      | some v => some (v + 1, encoding.drop state_bits)
    else some (1, encoding)
  let idx2 ← findZero encoding
  let input_bits := idx2
  let encoding := encoding.drop (idx2 + 1)
  let v ← ba2intOpt (encoding.take input_bits)
  let n_inputs := v + 1
  let inputs ← match inputs? with
    | some l => if n_inputs = l.length then some l else none
    | none => some (List.range n_inputs)
  let encoding := encoding.drop input_bits
  match encoding with
  | [] => none
  | sr :: rest =>
      some { state_bits := state_bits, n_states := n_states,
             input_bits := input_bits, n_inputs := n_inputs,
             inputsList := inputs, specify_rejecting := sr, rest := rest }

/-- dfa.py lines 153-157: read `k` state indices of `sb` bits each. -/
def readIndices (sb : Nat) : Nat → List Bool → Option (List Nat × List Bool)
  | 0, enc => some ([], enc)
  | k + 1, enc =>
      match ba2intOpt (enc.take sb) with
      | none => none
      | some v =>
          match readIndices sb k (enc.drop sb) with
          | none => none
          | some (vs, enc') => some (v :: vs, enc')

/-- dfa.py lines 160-172: consume `(state, symbol index, state)` triples until
the bits are exhausted.  A zero-width state field makes the first slice empty,
which `ba2int` rejects; symbol indices are resolved through the inputs
sequence (`inputs[sym]`, an IndexError — hence `none` — when out of range). -/
def parseTransitions (inputs : List Nat) (sb ib : Nat) : List Bool → Option (List (Nat × Nat × Nat))
  | [] => some []
  | b :: tl =>
      if _hsb : sb = 0 then none
      else
        match ba2intOpt ((b :: tl).take sb) with
        | none => none
        | some s =>
            let enc1 := (b :: tl).drop sb
            match ba2intOpt (enc1.take ib) with
            | none => none
            | some symIdx =>
                match inputs[symIdx]? with
                | none => none
                | some sym =>
                    let enc2 := enc1.drop ib
                    match ba2intOpt (enc2.take sb) with
                    | none => none
                    | some e =>
                        match parseTransitions inputs sb ib (enc2.drop sb) with
                        | none => none
                        | some ts => some ((s, sym, e) :: ts)
termination_by enc => enc.length
decreasing_by
  simp only [List.length_drop]
  simp only [List.length_cons]
  omega

/-- dfa.py line 178: `transitions.get((s, c), s)` for the dict built from the
parsed triples in order (a later entry overwrites an earlier one). -/
def lookupTrans (ts : List (Nat × Nat × Nat)) (s c : Nat) : Nat :=
  match ts.reverse.find? (fun t => t.1 == s && t.2.1 == c) with
  | some t => t.2.2
  | none => s

/-- dfa.py lines 143-179: build the decoded automaton from the parsed header:
the single-state shortcut (with its `n_states == 1` assertion), or the
accepting/rejecting index set followed by the transition triples. -/
def buildDFA (h : ParsedHeader) : Option Decoded :=
  match h.rest with
  | [] =>
      if h.n_states = 1 then some (singleStateDFA h.specify_rejecting h.inputsList)
      else none
  | b :: tl =>
      match ba2intOpt ((b :: tl).take h.state_bits) with
      | none => none
      | some v =>
          match readIndices h.state_bits (v + 1) ((b :: tl).drop h.state_bits) with
          | none => none
          | some (acc, enc) =>
              match parseTransitions h.inputsList h.state_bits h.input_bits enc with
              | none => none
              | some ts =>
                  some { start := 0
                         inputs := h.inputsList
                         label := fun s => acc.contains s ^^ h.specify_rejecting
                         transition := fun s c => lookupTrans ts s c }

/-- dfa.py lines 113-179: the full decoder. -/
def from_int (N : Nat) (inputs? : Option (List Nat)) : Option Decoded :=
  (parseHeader N inputs?).bind buildDFA

/-- The label the reindexed graph computes on a word (start state 0). -/
def MinDFA.labelW (G : MinDFA) (w : List Nat) : Bool :=
  G.label (w.foldl G.delta 0)

/-- The label a decoded automaton computes on a word. -/
def Decoded.labelW (D : Decoded) (w : List Nat) : Bool :=
  D.label (w.foldl D.transition D.start)

/-- A Python value that can appear as a label or an output: booleans, and (as
a stand-in for other hashable objects) integers. -/
inductive Val where
  | bool : Bool → Val
  | nat : Nat → Val
deriving DecidableEq

/-- Python truthiness of a value: `False` and `0` are falsy. -/
def Val.truthy : Val → Bool
  | .bool b => b
  | .nat n => n != 0

/-- Python `not v`. -/
def pyNot (v : Val) : Val := Val.bool (!v.truthy)

/-- Python `operator.and_` on the values occurring here: `bool & bool` is a
bool, a bool mixed with an int coerces to its integer value. -/
def pyAnd : Val → Val → Val
  | .bool a, .bool b => .bool (a && b)
  | .bool a, .nat b => .nat (Nat.land (cond a 1 0) b)
  | .nat a, .bool b => .nat (Nat.land a (cond b 1 0))
  | .nat a, .nat b => .nat (Nat.land a b)

/-- Python `operator.or_`. -/
def pyOr : Val → Val → Val
  | .bool a, .bool b => .bool (a || b)
  | .bool a, .nat b => .nat (Nat.lor (cond a 1 0) b)
  | .nat a, .bool b => .nat (Nat.lor a (cond b 1 0))
  | .nat a, .nat b => .nat (Nat.lor a b)

/-- Python `operator.xor`. -/
def pyXor : Val → Val → Val
  | .bool a, .bool b => .bool (a ^^ b)
  | .bool a, .nat b => .nat (Nat.xor (cond a 1 0) b)
  | .nat a, .bool b => .nat (Nat.xor a (cond b 1 0))
  | .nat a, .nat b => .nat (Nat.xor a b)

/-- The failure conditions of the modelled operations, distinguished the way
the source's exception types and messages distinguish them. -/
inductive Err where
  | notBoolean        -- ValueError: only defined for Boolean output DFAs
  | someInputsMissing -- ValueError: Some inputs missing from input order
  | sharedInputs      -- ValueError: op requires shared inputs
  | typeError         -- TypeError (sorting or comparing against None)
  | attributeError    -- AttributeError (access to a missing attribute)
  | assertionError    -- a failed assert statement
  | valueError        -- ValueError raised inside the bitarray utilities
deriving DecidableEq

/-- dfa.py lines 29-43: the automaton value.  The `fn.memoize` converters on
`_label` and `_transition` cache a pure function and are semantically the
identity, so the fields are the functions themselves. -/
structure DFA (S : Type) (α : Type) where
  start : S
  label : S → Val
  transition : S → α → S
  inputs : Option (Finset α)
  outputs : Finset Val

/-- The Boolean output set `{True, False}`. -/
def boolSet : Finset Val := {Val.bool true, Val.bool false}

/-- dfa.py lines 16-22: the `boolean_only` decorator checks
`self.outputs <= {True, False}` before running the wrapped method. -/
def boolean_only {S α β : Type} (A : DFA S α) (k : Except Err β) : Except Err β :=
  if A.outputs ⊆ boolSet then k else .error .notBoolean

/-- dfa.py lines 221-231 composed: the state reached from `start` on `word`
(the `_transition` composition computed by `trace`/`transition`; the alphabet
assertion of `trace` holds under the word-over-alphabet hypotheses used in the
theorems below). -/
def DFA.transitionW {S α : Type} (A : DFA S α) (w : List α) : S :=
  w.foldl A.transition A.start

/-- dfa.py lines 233-236: the label of the state reached on `word`. -/
def DFA.label_of {S α : Type} (A : DFA S α) (w : List α) : Val :=
  A.label (A.transitionW w)

/-- dfa.py lines 298-300: complement via `attr.evolve`, negating the label. -/
def DFA.invert {S α : Type} (A : DFA S α) : Except Err (DFA S α) :=
  boolean_only A (.ok { A with label := fun s => pyNot (A.label s) })

/-- dfa.py lines 302-313: the product construction behind the binary boolean
operators, after the shared-inputs check. -/
def DFA.binOp {S T α : Type} [DecidableEq α] (A : DFA S α) (B : DFA T α)
    (op : Val → Val → Val) : Except Err (DFA (S × T) α) :=
  if A.inputs ≠ B.inputs then .error .sharedInputs
  else .ok
    { start := (A.start, B.start)
      inputs := A.inputs
      transition := fun s c => (A.transition s.1 c, B.transition s.2 c)
      outputs := A.outputs ∪ B.outputs
      label := fun s => op (A.label s.1) (B.label s.2) }

/-- dfa.py lines 315-317: symmetric difference. -/
def DFA.xorOp {S T α : Type} [DecidableEq α] (A : DFA S α) (B : DFA T α) :
    Except Err (DFA (S × T) α) :=
  boolean_only A (A.binOp B pyXor)

/-- dfa.py lines 319-321: union. -/
def DFA.orOp {S T α : Type} [DecidableEq α] (A : DFA S α) (B : DFA T α) :
    Except Err (DFA (S × T) α) :=
  boolean_only A (A.binOp B pyOr)

/-- dfa.py lines 323-325: intersection. -/
def DFA.andOp {S T α : Type} [DecidableEq α] (A : DFA S α) (B : DFA T α) :
    Except Err (DFA (S × T) α) :=
  boolean_only A (A.binOp B pyAnd)

/-- The value the `run` coroutine suspends with: a state, or (when the label
flag is set) a label value. -/
inductive RunYield (S : Type) where
  | state : S → RunYield S
  | out : Val → RunYield S

/-- dfa.py line 214: `labeler = self.dfa._label if label else lambda x: x`.
`DFA` declares no attribute `dfa`, so evaluating `self.dfa` raises an
AttributeError as soon as the coroutine is first resumed with `label=True`. -/
def DFA.runLabeler {S α : Type} (_A : DFA S α) (lbl : Bool) :
    Except Err (S → RunYield S) :=
  if lbl then .error .attributeError else .ok (fun s => RunYield.state s)

/-- dfa.py lines 221-228: the state sequence visited along `word` from `s`
(length `len(word) + 1`). -/
def DFA.traceStates {S α : Type} (A : DFA S α) (w : List α) (s : S) : List S :=
  w.scanl A.transition s

/-- dfa.py lines 205-219: the sequence of suspension values the coroutine
produces when fed `letters` one at a time: one yield before the first send,
then one per symbol, each the labeler applied to the state after that
symbol. -/
def DFA.runYields {S α : Type} (A : DFA S α) (lbl : Bool) (start : Option S)
    (letters : List α) : Except Err (List (RunYield S)) :=
  match A.runLabeler lbl with
  | .error e => .error e
  | .ok labeler => .ok ((A.traceStates letters (start.getD A.start)).map labeler)

/-- dfa.py lines 251-262: the iterative DFS loop of `states()`: pop from the
end of the stack, skip visited states, else mark the state and push all of
its successors. -/
def dfsLoop {S α : Type} [DecidableEq S] [Fintype S] (trans : S → α → S)
    (l : List α) (visited : Finset S) (stack : List S) : Finset S :=
  if h : stack = [] then visited
  else
    if hv : stack.getLast h ∈ visited then dfsLoop trans l visited stack.dropLast
    else dfsLoop trans l (insert (stack.getLast h) visited)
      (stack.dropLast ++ l.map (trans (stack.getLast h)))
termination_by (Fintype.card S - visited.card, stack.length)
decreasing_by
· apply Prod.Lex.right
  have hlen : 0 < stack.length := List.length_pos.mpr h
  simp only [List.length_dropLast]
  omega
· apply Prod.Lex.left
  have h2 : (insert (stack.getLast h) visited).card = visited.card + 1 :=
    Finset.card_insert_of_not_mem hv
  have h3 : (insert (stack.getLast h) visited).card ≤ Fintype.card S :=
    Finset.card_le_univ _
  omega

/-- dfa.py lines 241-264: reachable-state search.  `inputsList` stands for the
deterministic enumeration `sorted(self.inputs)` (or the identity-order
fallback); the search stops at its alphabet assertion when `inputs` is
absent. -/
def DFA.states {S α : Type} [DecidableEq S] [Fintype S] (A : DFA S α)
    (inputsList : List α) : Except Err (Finset S) :=
  match A.inputs with
  | none => .error .assertionError
  | some _ => .ok (dfsLoop A.transition inputsList ∅ [A.start])

/-- Reachability from the start state via symbols of `I`. -/
def ReachesVia {S α : Type} (A : DFA S α) (I : Finset α) (s : S) : Prop :=
  ∃ w : List α, (∀ c ∈ w, c ∈ I) ∧ w.foldl A.transition A.start = s

mutual
/-- dfa.py lines 281-291: the recursive DFS of `find_accepting_word`: succeed
on an accepting (truthy-labelled) state, else mark it visited and try each
symbol in order.  The fuel argument only bounds the recursion depth; the
source's recursion nests at most once per newly visited state, so the
`Fintype.card S + 1` budget used below never runs out. -/
def fawGo {S α : Type} [DecidableEq S] (label : S → Val) (trans : S → α → S)
    (l : List α) : Nat → S → Finset S → Bool × Finset S × List α
  | 0, _, visited => (false, visited, [])
  | fuel + 1, state, visited =>
      if (label state).truthy then (true, visited, [])
      else fawTry label trans l fuel state (insert state visited) l
termination_by fuel _ _ => (fuel, 0)

/-- The `for i in inputs` loop of the recursive search: `trans state i` is
explored when unvisited; on failure the appended word entry is popped while
the enlarged visited set is kept. -/
def fawTry {S α : Type} [DecidableEq S] (label : S → Val) (trans : S → α → S)
    (l : List α) : Nat → S → Finset S → List α → Bool × Finset S × List α
  | _, _, visited, [] => (false, visited, [])
  | fuel, state, visited, i :: rest =>
      if trans state i ∈ visited then fawTry label trans l fuel state visited rest
      else
        match fawGo label trans l fuel (trans state i) visited with
        | (true, v', w) => (true, v', i :: w)
        | (false, v', _) => fawTry label trans l fuel state v' rest
termination_by fuel _ _ lst => (fuel, lst.length + 1)
end

/-- dfa.py lines 266-296: `find_accepting_word`, decorated `boolean_only`;
`sorted(self.inputs)` raises a TypeError when `inputs` is `None`; otherwise
run the recursive DFS from the start with an empty visited set and return the
accumulated word on success, or an absent result. -/
def DFA.find_accepting_word {S α : Type} [DecidableEq S] [Fintype S] (A : DFA S α)
    (inputsList : List α) : Except Err (Option (List α)) :=
  boolean_only A
    (match A.inputs with
     | none => .error .typeError
     | some _ =>
         match fawGo A.label A.transition inputsList (Fintype.card S + 1) A.start ∅ with
         | (true, _, w) => .ok (some w)
         | (false, _, _) => .ok none)

/-- dfa.py lines 61-71 and 111: the `to_int` method.  The minimizer and the
graph converter live in `dfa/utils.py`, outside the analysed module; their
result — the reindexed minimized graph under the chosen symbol order — is
therefore an explicit argument `minG` (spec §4.5/§6 contract).  The decorator
check, the input-order check (line 69: `not (set(input_order) < self.inputs)`,
a proper-subset test) and the bitarray failure modes are the module's own. -/
def DFA.to_int {S α : Type} [DecidableEq α] (A : DFA S α)
    (input_order : Option (List α)) (minG : MinDFA) : Except Err Nat :=
  boolean_only A
    (match input_order, A.inputs with
     | none, none => .error .typeError
     | none, some I =>
         match to_int_bits minG I.card I.card with
         | none => .error .valueError
         | some e => .ok (ba2int e)
     | some _, none => .error .typeError
     | some ord, some I =>
         if ¬(ord.toFinset ⊂ I) then .error .someInputsMissing
         else
           match to_int_bits minG ord.length I.card with
           | none => .error .valueError
           | some e => .ok (ba2int e))

/-- Modelled from the spec: `minimize` and `dfa2dict(·, reindex=True)` live in
`dfa/utils.py`, outside the analysed module.  Per spec §6 the minimizer
returns a language-equivalent automaton with the minimum possible number of
reachable, distinguishable states, and the reindexing graph converter labels
the states `0 .. n-1` deterministically starting from the start state.  `G`
is a faithful minimized reindexing of a Boolean automaton with language `L`
(over the chosen symbol order, symbols identified with their positions) when
it is well-typed, language-equivalent to `L`, and — a consequence of
minimality, since two states with no distinguishing word are merged — when it
has two or more states both output classes are inhabited. -/
def IsMinimizedReindexing (L : List Nat → Bool) (G : MinDFA) : Prop :=
  1 ≤ G.n ∧
  (∀ s, s < G.n → ∀ i, i < G.m → G.delta s i < G.n) ∧
  (∀ w : List Nat, (∀ c ∈ w, c < G.m) → G.labelW w = L w) ∧
  (2 ≤ G.n →
    (∃ s, s < G.n ∧ G.label s = true) ∧ (∃ s, s < G.n ∧ G.label s = false))

/-- A concrete two-state minimized graph over a two-symbol alphabet: state 1
is accepting and absorbing via symbol 1.  Used to witness the codec
theorems. -/
def exG : MinDFA :=
  { n := 2
    m := 2
    label := fun s => s == 1
    delta := fun s i => if i = 1 then 1 else s }

/-- A concrete one-state rejecting minimized graph over a two-symbol
alphabet; it encodes to the integer 42. -/
def exG1 : MinDFA :=
  { n := 1
    m := 2
    label := fun _ => false
    delta := fun _ _ => 0 }

/-- The decoded form of the encoding of `exG`: its index set is `{1}` with
the selection bit clear, and its sole non-stuttering transition triple is
`(0, 1, 1)`. -/
def exD : Decoded :=
  { start := 0
    inputs := [0, 1]
    label := fun s => [1].contains s ^^ false
    transition := fun s c => lookupTrans [(0, 1, 1)] s c }

/-- The parsed header of the encoding of `exG1` (the integer 42). -/
def exHdr1 : ParsedHeader :=
  { state_bits := 0
    n_states := 1
    input_bits := 1
    n_inputs := 2
    inputsList := [0, 1]
    specify_rejecting := false
    rest := [] }

/-- A concrete single-state Boolean automaton over the alphabet `{0, 1}`
whose start state is accepting. -/
def exA : DFA (Fin 1) Nat :=
  { start := 0
    label := fun _ => Val.bool true
    transition := fun s _ => s
    inputs := some {0, 1}
    outputs := {Val.bool true, Val.bool false} }

/-- A concrete two-state Boolean automaton over the alphabet `{0, 1}`: state
1 is accepting and absorbing via symbol 1. -/
def exB : DFA (Fin 2) Nat :=
  { start := 0
    label := fun s => Val.bool (s == 1)
    transition := fun s c => if c = 1 then 1 else s
    inputs := some {0, 1}
    outputs := {Val.bool true, Val.bool false} }

/-- A concrete single-state automaton with a non-Boolean output set. -/
def exBad : DFA (Fin 1) Nat :=
  { start := 0
    label := fun _ => Val.nat 7
    transition := fun s _ => s
    inputs := some {0, 1}
    outputs := {Val.nat 7} }

/-- A concrete automaton with no declared alphabet. -/
def exNoInputs : DFA (Fin 1) Nat :=
  { start := 0
    label := fun _ => Val.bool true
    transition := fun s _ => s
    inputs := none
    outputs := {Val.bool true, Val.bool false} }

/-! Basic facts about the bit-level primitives. -/

theorem natToBits_length (w : Nat) : ∀ x, (natToBits w x).length = w := by
  induction w with
  | zero => intro x; rfl
  | succ k ih => intro x; simp [natToBits, ih]

theorem ba2int_nil : ba2int [] = 0 := rfl

theorem ba2int_foldl (l : List Bool) :
    ∀ a : Nat, l.foldl (fun a b => 2 * a + b.toNat) a = a * 2 ^ l.length + ba2int l := by
  induction l with
  | nil => intro a; simp [ba2int]
  | cons b tl ih =>
    intro a
    simp only [List.foldl_cons, List.length_cons, ba2int, pow_succ]
    rw [ih (2 * a + b.toNat), ih (2 * 0 + b.toNat)]
    ring

theorem ba2int_append (a b : List Bool) :
    ba2int (a ++ b) = ba2int a * 2 ^ b.length + ba2int b := by
  unfold ba2int
  rw [List.foldl_append]
  exact ba2int_foldl b _

theorem ba2int_concat (a : List Bool) (b : Bool) :
    ba2int (a ++ [b]) = 2 * ba2int a + b.toNat := by
  rw [ba2int_append]
  simp [ba2int]
  ring

theorem ba2int_lt (l : List Bool) : ba2int l < 2 ^ l.length := by
  induction l using List.reverseRecOn with
  | nil => simp [ba2int]
  | append_singleton a b ih =>
    rw [ba2int_concat]
    simp only [List.length_append, List.length_cons, List.length_nil, pow_succ]
    cases b <;> simp [Bool.toNat] <;> omega

theorem ba2int_natToBits (w : Nat) : ∀ x, x < 2 ^ w → ba2int (natToBits w x) = x := by
  induction w with
  | zero => intro x hx; interval_cases x; rfl
  | succ k ih =>
    intro x hx
    rw [natToBits, ba2int_concat, ih (x / 2) (by rw [pow_succ] at hx; omega)]
    rcases Nat.mod_two_eq_zero_or_one x with h | h <;> (simp [h]; omega)

theorem natToBits_ba2int (l : List Bool) : natToBits l.length (ba2int l) = l := by
  induction l using List.reverseRecOn with
  | nil => rfl
  | append_singleton a b ih =>
    rw [ba2int_concat]
    simp only [List.length_append, List.length_cons, List.length_nil]
    rw [natToBits]
    have h2 : (2 * ba2int a + b.toNat) / 2 = ba2int a := by
      cases b <;> simp only [Bool.toNat_true, Bool.toNat_false] <;> omega
    have h3 : ((2 * ba2int a + b.toNat) % 2 == 1) = b := by
      cases b <;> simp [Nat.mul_add_mod]
    rw [h2, h3, ih]

theorem natToBits_all_ones (w : Nat) : natToBits w (2 ^ w - 1) = List.replicate w true := by
  induction w with
  | zero => rfl
  | succ k ih =>
    rw [natToBits]
    have h1 : (2 ^ (k + 1) - 1) / 2 = 2 ^ k - 1 := by
      have : 0 < 2 ^ k := Nat.pos_pow_of_pos k (by norm_num)
      rw [pow_succ]; omega
    have h2 : ((2 ^ (k + 1) - 1) % 2 == 1) = true := by
      have : 0 < 2 ^ (k + 1) := Nat.pos_pow_of_pos _ (by norm_num)
      have hmod : (2 ^ (k + 1) - 1) % 2 = 1 := by
        rw [pow_succ]; omega
      simp [hmod]
    rw [h1, h2, ih]
    have : List.replicate (k + 1) true = List.replicate k true ++ [true] := by
      rw [List.replicate_succ']
    rw [this]

theorem int2baMin_ba2int (r : List Bool) : int2baMin (ba2int (true :: r)) = true :: r := by
  have hlow : 2 ^ r.length ≤ ba2int (true :: r) := by
    have : ba2int (true :: r) = ba2int ([true] ++ r) := rfl
    rw [this, ba2int_append]
    simp [ba2int]
  have hhigh : ba2int (true :: r) < 2 ^ (r.length + 1) := by
    have := ba2int_lt (true :: r)
    simpa using this
  have hne : ba2int (true :: r) ≠ 0 := by
    have : 0 < 2 ^ r.length := Nat.pos_pow_of_pos _ (by norm_num)
    omega
  have hlog : Nat.log2 (ba2int (true :: r)) = r.length := by
    rw [Nat.log2_eq_log_two]
    exact Nat.log_eq_of_pow_le_of_lt_pow hlow hhigh
  rw [int2baMin, if_neg hne, hlog]
  have : r.length + 1 = (true :: r).length := by simp
  rw [this, natToBits_ba2int]

theorem int2ba_eq_some (v : Int) (w : Nat) (hw : 0 < w) (h0 : 0 ≤ v) (hv : v < 2 ^ w) :
    int2ba v w = some (natToBits w v.toNat) := by
  rw [int2ba, if_pos ⟨hw, h0, hv⟩]

/-! Derived facts about `bits_needed` and the encoded state sets. -/

theorem bits_needed_pos {n : Nat} (hn : 2 ≤ n) : 0 < bits_needed n := by
  rw [bits_needed, if_neg (by omega)]
  rw [Nat.size_pos]
  omega

theorem sub_one_lt_two_pow_bits_needed {n : Nat} (hn : 1 ≤ n) :
    n - 1 < 2 ^ bits_needed n := by
  rw [bits_needed]
  split
  · simp
    omega
  · exact Nat.lt_size_self (n - 1)

theorem le_two_pow_bits_needed {n : Nat} (hn : 1 ≤ n) : n ≤ 2 ^ bits_needed n := by
  have := sub_one_lt_two_pow_bits_needed hn
  omega

theorem accepting_subset (G : MinDFA) : accepting G ⊆ Finset.range G.n :=
  Finset.filter_subset _ _

theorem indicies_subset (G : MinDFA) : indicies G ⊆ Finset.range G.n := by
  rw [indicies]
  split
  · exact Finset.sdiff_subset
  · exact accepting_subset G

theorem indicies_card_le (G : MinDFA) : (indicies G).card ≤ G.n := by
  have := Finset.card_le_card (indicies_subset G)
  simpa using this

theorem mem_accepting {G : MinDFA} {s : Nat} :
    s ∈ accepting G ↔ s < G.n ∧ G.label s = true := by
  simp [accepting]

theorem indicies_eq_empty_of_n_eq_one (G : MinDFA) (h1 : G.n = 1) :
    indicies G = ∅ := by
  have hacc : accepting G = if G.label 0 = true then {0} else ∅ := by
    ext s
    constructor
    · intro hs
      rw [mem_accepting] at hs
      have hs0 : s = 0 := by omega
      subst hs0
      simp [hs.2]
    · intro hs
      by_cases hl : G.label 0 = true
      · simp [hl] at hs
        subst hs
        exact mem_accepting.mpr ⟨by omega, hl⟩
      · simp [hl] at hs
  by_cases hl : G.label 0 = true
  · have hsr : specify_rejecting G = true := by
      simp [specify_rejecting, hacc, hl, h1]
    rw [indicies, hsr, if_pos rfl, hacc, if_pos hl, h1]
    ext s
    simp [Nat.lt_one_iff]
  · have hsr : specify_rejecting G = false := by
      simp [specify_rejecting, hacc, hl, h1]
    rw [indicies, hsr]
    simp only [Bool.false_eq_true, if_false]
    rw [hacc, if_neg hl]

theorem indicies_nonempty (G : MinDFA)
    (hlab : (∃ s, s < G.n ∧ G.label s = true) ∧ ∃ s, s < G.n ∧ G.label s = false) :
    1 ≤ (indicies G).card := by
  rw [Finset.one_le_card, indicies]
  split
  · obtain ⟨s, hs, hfalse⟩ := hlab.2
    exact ⟨s, by simp [Finset.mem_sdiff, mem_accepting, hs, hfalse]⟩
  · obtain ⟨s, hs, htrue⟩ := hlab.1
    exact ⟨s, mem_accepting.mpr ⟨hs, htrue⟩⟩

/-! The encoder produces exactly `encBody`. -/

theorem int2ba_natCast (v w : Nat) (hw : 0 < w) (hv : v < 2 ^ w) :
    int2ba (v : Int) w = some (natToBits w v) := by
  rw [int2ba_eq_some (v : Int) w hw (by positivity) (by exact_mod_cast hv)]
  simp

theorem int2ba_natCast_sub_one (v w : Nat) (hv1 : 1 ≤ v) (hw : 0 < w)
    (hv : v - 1 < 2 ^ w) : int2ba ((v : Int) - 1) w = some (natToBits w (v - 1)) := by
  have h1 : ((v : Int) - 1) = ((v - 1 : Nat) : Int) := by omega
  rw [h1, int2ba_natCast _ w hw hv]

theorem int2ba_pow_sub_one (w : Nat) (hw : 0 < w) :
    int2ba ((2 : Int) ^ w - 1) w = some (List.replicate w true) := by
  have h1 : ((2 : Int) ^ w - 1) = ((2 ^ w - 1 : Nat) : Int) := by
    have : (1 : Nat) ≤ 2 ^ w := Nat.one_le_two_pow
    push_cast [this]
    ring
  rw [h1, int2ba_natCast _ w hw (by have : (1 : Nat) ≤ 2 ^ w := Nat.one_le_two_pow; omega),
      natToBits_all_ones]

theorem foldlM_eq_flatMap {β : Type} (f : List Bool → β → Option (List Bool))
    (g : β → List Bool) : ∀ (L : List β),
    (∀ acc x, x ∈ L → f acc x = some (acc ++ g x)) →
    ∀ acc, L.foldlM f acc = some (acc ++ L.flatMap g) := by
  intro L
  induction L with
  | nil => intro _ acc; simp
  | cons x tl ih =>
    intro hf acc
    rw [List.foldlM_cons, hf acc x (by simp)]
    simp only [Option.bind_eq_bind, Option.some_bind]
    rw [ih (fun a y hy => hf a y (by simp [hy])) (acc ++ g x)]
    simp

theorem indicesBits_eq (G : MinDFA) (sb : Nat)
    (h : ∀ i ∈ (indicies G).sort (· ≤ ·), 0 < sb ∧ i < 2 ^ sb) :
    indicesBits G sb = some (idxFlat G sb) := by
  rw [indicesBits, idxFlat]
  have hf : ∀ (acc : List Bool) (x : Nat), x ∈ (indicies G).sort (· ≤ ·) →
      (fun (acc : List Bool) (idx : Nat) =>
        match int2ba (idx : Int) sb with
        | none => none
        | some t => some (acc ++ t)) acc x = some (acc ++ natToBits sb x) := by
    intro acc x hx
    dsimp only
    rw [int2ba_natCast x sb (h x hx).1 (h x hx).2]
  have hres := foldlM_eq_flatMap _ _ _ hf []
  rw [hres, List.nil_append]

theorem tripleBits_eq (sb ib s i e : Nat) (hsb : 0 < sb) (hib : 0 < ib)
    (hs : s < 2 ^ sb) (hi : i < 2 ^ ib) (he : e < 2 ^ sb) :
    tripleBits sb ib s i e = some (encTriple sb ib (s, i, e)) := by
  rw [tripleBits, int2ba_natCast s sb hsb hs, int2ba_natCast i ib hib hi,
      int2ba_natCast e sb hsb he]
  rfl

theorem transitionsBits_eq (G : MinDFA) (order_len sb ib : Nat)
    (h : ∀ s, s < G.n → ∀ i, i < order_len → s ≠ G.delta s i →
      (0 < sb ∧ 0 < ib ∧ s < 2 ^ sb ∧ i < 2 ^ ib ∧ G.delta s i < 2 ^ sb)) :
    transitionsBits G order_len sb ib
      = some ((List.range G.n).flatMap (fun s =>
          (List.range order_len).flatMap (fun i =>
            if s = G.delta s i then [] else encTriple sb ib (s, i, G.delta s i)))) := by
  have hrow : ∀ s, s < G.n → ∀ (acc : List Bool),
      (List.range order_len).foldlM (fun acc2 i =>
        if s = G.delta s i then some acc2
        else
          match tripleBits sb ib s i (G.delta s i) with
          | none => none
          | some t => some (acc2 ++ t)) acc
      = some (acc ++ (List.range order_len).flatMap (fun i =>
          if s = G.delta s i then [] else encTriple sb ib (s, i, G.delta s i))) := by
    intro s hs acc
    apply foldlM_eq_flatMap
    intro acc2 i hi
    have hi' : i < order_len := List.mem_range.mp hi
    by_cases heq : s = G.delta s i
    · rw [if_pos heq, if_pos heq, List.append_nil]
    · obtain ⟨h1, h2, h3, h4, h5⟩ := h s hs i hi' heq
      rw [if_neg heq, if_neg heq, tripleBits_eq sb ib s i (G.delta s i) h1 h2 h3 h4 h5]
  rw [transitionsBits]
  have hres := foldlM_eq_flatMap
    (fun acc s =>
      (List.range order_len).foldlM (fun acc2 i =>
        if s = G.delta s i then some acc2
        else
          match tripleBits sb ib s i (G.delta s i) with
          | none => none
          | some t => some (acc2 ++ t)) acc)
    (fun s => (List.range order_len).flatMap (fun i =>
        if s = G.delta s i then [] else encTriple sb ib (s, i, G.delta s i)))
    (List.range G.n)
    (fun acc s hs => hrow s (List.mem_range.mp hs) acc) []
  rw [hres, List.nil_append]

theorem natToBits_zero (x : Nat) : natToBits 0 x = [] := rfl

theorem transitionsBits_hyp (G : MinDFA) (hm : 2 ≤ G.m)
    (hdelta : ∀ s, s < G.n → ∀ i, i < G.m → G.delta s i < G.n) :
    ∀ s, s < G.n → ∀ i, i < G.m → s ≠ G.delta s i →
      (0 < bits_needed G.n ∧ 0 < bits_needed G.m ∧ s < 2 ^ bits_needed G.n ∧
        i < 2 ^ bits_needed G.m ∧ G.delta s i < 2 ^ bits_needed G.n) := by
  intro s hs i hi hne
  have hd := hdelta s hs i hi
  by_cases h2 : 2 ≤ G.n
  · exact ⟨bits_needed_pos h2, bits_needed_pos hm,
      lt_of_lt_of_le hs (le_two_pow_bits_needed (by omega)),
      lt_of_lt_of_le hi (le_two_pow_bits_needed (by omega)),
      lt_of_lt_of_le hd (le_two_pow_bits_needed (by omega))⟩
  · omega

theorem indicesBits_hyp (G : MinDFA) :
    ∀ i ∈ (indicies G).sort (· ≤ ·), 0 < bits_needed G.n ∧ i < 2 ^ bits_needed G.n := by
  intro i hi
  have hmem : i ∈ indicies G := (Finset.mem_sort _).mp hi
  have hilt : i < G.n := by
    have := indicies_subset G hmem
    simpa using this
  have h2 : 2 ≤ G.n := by
    by_contra hc
    by_cases h0 : G.n = 1
    · rw [indicies_eq_empty_of_n_eq_one G h0] at hmem
      simp at hmem
    · omega
  exact ⟨bits_needed_pos h2, lt_of_lt_of_le hilt (le_two_pow_bits_needed (by omega))⟩

theorem flatMap_match_filterMap {β γ : Type} (g : β → Option γ) (h : γ → List Bool) :
    ∀ L : List β,
    L.flatMap (fun x => match g x with | none => [] | some t => h t)
      = (L.filterMap g).flatMap h := by
  intro L
  induction L with
  | nil => simp
  | cons x tl ih =>
    rw [List.flatMap_cons, List.filterMap_cons]
    cases hg : g x <;> simp [hg, ih]

theorem transFlat_eq (G : MinDFA) (sb ib : Nat) :
    (List.range G.n).flatMap (fun s =>
      (List.range G.m).flatMap (fun i =>
        if s = G.delta s i then [] else encTriple sb ib (s, i, G.delta s i)))
    = (transTriples G).flatMap (encTriple sb ib) := by
  rw [transTriples, List.flatMap_assoc]
  congr 1
  funext s
  rw [← flatMap_match_filterMap]
  congr 1
  funext i
  by_cases heq : s = G.delta s i
  · rw [if_pos heq, if_pos heq]
  · rw [if_neg heq, if_neg heq]

theorem to_int_bits_eq_encBody (G : MinDFA) (hn : 1 ≤ G.n) (hm : 2 ≤ G.m)
    (hdelta : ∀ s, s < G.n → ∀ i, i < G.m → G.delta s i < G.n)
    (hlab : 2 ≤ G.n →
      (∃ s, s < G.n ∧ G.label s = true) ∧ (∃ s, s < G.n ∧ G.label s = false)) :
    to_int_bits G G.m G.m = some (encBody G) := by
  have hib : 0 < bits_needed G.m := bits_needed_pos hm
  have him : G.m - 1 < 2 ^ bits_needed G.m := sub_one_lt_two_pow_bits_needed (by omega)
  have he5 := int2ba_pow_sub_one (bits_needed G.m) hib
  have he7 := int2ba_natCast_sub_one G.m (bits_needed G.m) (by omega) hib him
  have htrans := transitionsBits_eq G G.m (bits_needed G.n) (bits_needed G.m)
    (transitionsBits_hyp G hm hdelta)
  rw [transFlat_eq] at htrans
  have hidxbits := indicesBits_eq G (bits_needed G.n) (indicesBits_hyp G)
  by_cases h2 : 2 ≤ G.n
  · have hsb : 0 < bits_needed G.n := bits_needed_pos h2
    have hne0 : bits_needed G.n ≠ 0 := by omega
    have hltn : G.n - 1 < 2 ^ bits_needed G.n := sub_one_lt_two_pow_bits_needed hn
    have he2 := int2ba_pow_sub_one (bits_needed G.n) hsb
    have he4 := int2ba_natCast_sub_one G.n (bits_needed G.n) hn hsb hltn
    have hcard : 1 ≤ (indicies G).card := indicies_nonempty G (hlab h2)
    have hcard2 : (indicies G).card - 1 < 2 ^ bits_needed G.n := by
      have := indicies_card_le G
      omega
    have he9 := int2ba_natCast_sub_one (indicies G).card (bits_needed G.n) hcard hsb hcard2
    simp only [to_int_bits, eq_true hne0, if_true, he2, he4, he5, he7, he9, hidxbits,
      htrans, Option.map_some', Option.bind_eq_bind, Option.some_bind, pure]
    rw [encBody, encRest]
    simp [List.append_assoc]
  · have h1 : G.n = 1 := by omega
    have hsb0 : bits_needed G.n = 0 := by rw [h1]; rfl
    have hf : (bits_needed G.n ≠ 0) = False := by simp [hsb0]
    have hidx : indicies G = ∅ := indicies_eq_empty_of_n_eq_one G h1
    have hflat : idxFlat G (bits_needed G.n) = [] := by
      rw [idxFlat, hidx]
      simp
    have hrange : List.range G.n = [0] := by rw [h1]; rfl
    have htt : transTriples G = [] := by
      rw [transTriples, hrange]
      simp only [List.flatMap_cons, List.flatMap_nil, List.append_nil]
      rw [List.filterMap_eq_nil_iff]
      intro i hi
      have hd := hdelta 0 (by omega) i (List.mem_range.mp hi)
      rw [if_pos (by omega)]
    rw [htt] at htrans
    simp only [List.flatMap_nil] at htrans
    simp only [to_int_bits, hf, if_false, he5, he7, hidxbits, htrans,
      Option.map_some', Option.bind_eq_bind, Option.some_bind, pure]
    rw [encBody, encRest, hflat, hsb0, htt]
    simp [natToBits_zero, List.append_assoc]

/-! Decoding inverts the stages of the encoding. -/

theorem findZero_cons_true (l : List Bool) :
    findZero (true :: l) = (findZero l).map (· + 1) := by
  simp [findZero, List.findIdx?_cons]

theorem findZero_cons_false (l : List Bool) : findZero (false :: l) = some 0 := by
  simp [findZero, List.findIdx?_cons]

theorem findZero_replicate (k : Nat) (r : List Bool) :
    findZero (List.replicate k true ++ false :: r) = some k := by
  induction k with
  | zero =>
    simp [findZero, List.findIdx?_cons]
  | succ j ih =>
    rw [List.replicate_succ, List.cons_append, findZero_cons_true, ih]
    rfl

theorem drop_replicate_false (k : Nat) (r : List Bool) :
    (List.replicate k true ++ false :: r).drop (k + 1) = r := by
  have h : List.replicate k true ++ false :: r
      = (List.replicate k true ++ [false]) ++ r := by
    simp [List.append_assoc]
  rw [h, List.drop_left' (by simp)]

theorem ba2intOpt_natToBits (w x : Nat) (hw : 0 < w) (hx : x < 2 ^ w) :
    ba2intOpt (natToBits w x) = some x := by
  have hne : (natToBits w x).isEmpty = false := by
    rcases hnb : natToBits w x with _ | ⟨a, l⟩
    · have hl := natToBits_length w x
      rw [hnb] at hl
      simp at hl
      omega
    · rfl
  rw [ba2intOpt, hne, if_neg (by simp), ba2int_natToBits w x hx]

theorem readIndices_append (sb : Nat) (hsb : 0 < sb) :
    ∀ (vals : List Nat), (∀ v ∈ vals, v < 2 ^ sb) → ∀ (rest : List Bool),
    readIndices sb vals.length (vals.flatMap (fun i => natToBits sb i) ++ rest)
      = some (vals, rest) := by
  intro vals
  induction vals with
  | nil =>
    intro _ rest
    simp [readIndices]
  | cons v tl ih =>
    intro hv rest
    rw [List.flatMap_cons, List.append_assoc, List.length_cons]
    rw [readIndices]
    rw [List.take_left' (natToBits_length sb v), List.drop_left' (natToBits_length sb v)]
    rw [ba2intOpt_natToBits sb v hsb (hv v (by simp))]
    rw [ih (fun u hu => hv u (by simp [hu])) rest]

theorem parseTransitions_cons_eq (inputs : List Nat) (sb ib : Nat) (hsb : sb ≠ 0)
    (enc : List Bool) (hne : enc ≠ []) :
    parseTransitions inputs sb ib enc =
      match ba2intOpt (enc.take sb) with
      | none => none
      | some s =>
          match ba2intOpt ((enc.drop sb).take ib) with
          | none => none
          | some symIdx =>
              match inputs[symIdx]? with
              | none => none
              | some sym =>
                  match ba2intOpt (((enc.drop sb).drop ib).take sb) with
                  | none => none
                  | some e =>
                      match parseTransitions inputs sb ib (((enc.drop sb).drop ib).drop sb) with
                      | none => none
                      | some ts => some ((s, sym, e) :: ts) := by
  cases enc with
  | nil => exact absurd rfl hne
  | cons b tl =>
    rw [parseTransitions]
    rw [dif_neg hsb]

theorem parseTransitions_append (inputs : List Nat) (sb ib : Nat)
    (hsb : 0 < sb) (hib : 0 < ib) (s i e : Nat) (hs : s < 2 ^ sb)
    (hi2 : i < 2 ^ ib) (he : e < 2 ^ sb) (sym : Nat) (hsym : inputs[i]? = some sym)
    (rest : List Bool) :
    parseTransitions inputs sb ib (encTriple sb ib (s, i, e) ++ rest)
      = (parseTransitions inputs sb ib rest).map (fun ts => (s, sym, e) :: ts) := by
  have hshape : encTriple sb ib (s, i, e) ++ rest
      = natToBits sb s ++ (natToBits ib i ++ (natToBits sb e ++ rest)) := by
    rw [encTriple]
    simp [List.append_assoc]
  have hne : encTriple sb ib (s, i, e) ++ rest ≠ [] := by
    rw [hshape]
    intro hcontra
    have := congrArg List.length hcontra
    simp [natToBits_length] at this
    omega
  rw [parseTransitions_cons_eq inputs sb ib (by omega) _ hne, hshape]
  rw [List.take_left' (natToBits_length sb s), List.drop_left' (natToBits_length sb s)]
  rw [List.take_left' (natToBits_length ib i), List.drop_left' (natToBits_length ib i)]
  rw [List.take_left' (natToBits_length sb e), List.drop_left' (natToBits_length sb e)]
  simp only [ba2intOpt_natToBits sb s hsb hs, ba2intOpt_natToBits ib i hib hi2,
    ba2intOpt_natToBits sb e hsb he, hsym]
  cases hrec : parseTransitions inputs sb ib rest <;> simp [hrec]

theorem parseTransitions_range (m sb ib : Nat) (hsb : 0 < sb) (hib : 0 < ib) :
    ∀ (ts : List (Nat × Nat × Nat)),
    (∀ t ∈ ts, t.1 < 2 ^ sb ∧ t.2.1 < m ∧ t.2.1 < 2 ^ ib ∧ t.2.2 < 2 ^ sb) →
    parseTransitions (List.range m) sb ib (ts.flatMap (encTriple sb ib))
      = some ts := by
  intro ts
  induction ts with
  | nil =>
    intro _
    rw [List.flatMap_nil]
    simp [parseTransitions]
  | cons t tl ih =>
    intro ht
    obtain ⟨h1, h2, h3, h4⟩ := ht t (by simp)
    obtain ⟨a, b, c⟩ := t
    rw [List.flatMap_cons,
      parseTransitions_append (List.range m) sb ib hsb hib a b c h1 h3 h4 b
        (by simp [List.getElem?_range h2]) _,
      ih (fun u hu => ht u (by simp [hu]))]
    rfl

theorem parseHeader_encBody (G : MinDFA) (hn : 1 ≤ G.n) (hm : 2 ≤ G.m) :
    parseHeader (ba2int (encBody G)) (some (List.range G.m)) = some
      { state_bits := bits_needed G.n
        n_states := G.n
        input_bits := bits_needed G.m
        n_inputs := G.m
        inputsList := List.range G.m
        specify_rejecting := specify_rejecting G
        rest := encRest G } := by
  have hib : 0 < bits_needed G.m := bits_needed_pos hm
  have him : G.m - 1 < 2 ^ bits_needed G.m := sub_one_lt_two_pow_bits_needed (by omega)
  have hmin : int2baMin (ba2int (encBody G)) = encBody G := by
    rw [encBody]
    exact int2baMin_ba2int _
  simp only [encBody] at hmin
  have hmlen : G.m - 1 + 1 = G.m := by omega
  by_cases h2 : 2 ≤ G.n
  · have hsb : 0 < bits_needed G.n := bits_needed_pos h2
    have hnn : G.n - 1 < 2 ^ bits_needed G.n := sub_one_lt_two_pow_bits_needed hn
    have hnlen : G.n - 1 + 1 = G.n := by omega
    simp only [parseHeader, hmin, encBody, List.drop_succ_cons, List.drop_zero,
      findZero_replicate, Option.bind_eq_bind, Option.some_bind, drop_replicate_false,
      gt_iff_lt, hsb, if_true,
      List.take_left' (natToBits_length (bits_needed G.n) (G.n - 1)),
      List.drop_left' (natToBits_length (bits_needed G.n) (G.n - 1)),
      ba2intOpt_natToBits (bits_needed G.n) (G.n - 1) hsb hnn,
      List.take_left' (natToBits_length (bits_needed G.m) (G.m - 1)),
      List.drop_left' (natToBits_length (bits_needed G.m) (G.m - 1)),
      ba2intOpt_natToBits (bits_needed G.m) (G.m - 1) hib him,
      List.length_range, hmlen, hnlen, eq_self_iff_true]
  · have h1 : G.n = 1 := by omega
    have hsb1 : bits_needed 1 = 0 := rfl
    simp only [h1, hsb1, List.replicate_zero, List.nil_append, natToBits_zero] at hmin
    simp only [parseHeader, encBody, h1, hsb1, List.replicate_zero, List.nil_append,
      natToBits_zero, hmin, List.drop_succ_cons, List.drop_zero, findZero_cons_false,
      Option.bind_eq_bind, Option.some_bind, gt_iff_lt, lt_self_iff_false, if_false,
      findZero_replicate, drop_replicate_false,
      List.take_left' (natToBits_length (bits_needed G.m) (G.m - 1)),
      List.drop_left' (natToBits_length (bits_needed G.m) (G.m - 1)),
      ba2intOpt_natToBits (bits_needed G.m) (G.m - 1) hib him,
      List.length_range, hmlen, eq_self_iff_true, if_true]

theorem mem_transTriples {G : MinDFA} {t : Nat × Nat × Nat} :
    t ∈ transTriples G ↔
      t.1 < G.n ∧ t.2.1 < G.m ∧ t.1 ≠ G.delta t.1 t.2.1 ∧ t.2.2 = G.delta t.1 t.2.1 := by
  obtain ⟨a, b, c⟩ := t
  rw [transTriples]
  simp only [List.mem_flatMap, List.mem_filterMap, List.mem_range]
  constructor
  · rintro ⟨s, hs, i, hi, hif⟩
    by_cases heq : s = G.delta s i
    · rw [if_pos heq] at hif
      cases hif
    · rw [if_neg heq] at hif
      simp only [Option.some.injEq, Prod.mk.injEq] at hif
      obtain ⟨rfl, rfl, rfl⟩ := hif
      exact ⟨hs, hi, heq, rfl⟩
  · rintro ⟨h1, h2, h3, h4⟩
    refine ⟨a, h1, b, h2, ?_⟩
    rw [if_neg h3]
    simp only [h4]

theorem transTriples_nil (G : MinDFA) (h1 : G.n = 1)
    (hdelta : ∀ s, s < G.n → ∀ i, i < G.m → G.delta s i < G.n) :
    transTriples G = [] := by
  rw [List.eq_nil_iff_forall_not_mem]
  intro t ht
  rw [mem_transTriples] at ht
  obtain ⟨ha, hb, hc, _⟩ := ht
  have := hdelta t.1 ha t.2.1 hb
  omega

theorem lookupTrans_transTriples (G : MinDFA) (s c : Nat) (hs : s < G.n) (hc : c < G.m) :
    lookupTrans (transTriples G) s c = G.delta s c := by
  rw [lookupTrans]
  by_cases heq : s = G.delta s c
  · have hnone : (transTriples G).reverse.find? (fun t => t.1 == s && t.2.1 == c) = none := by
      rw [List.find?_eq_none]
      intro t ht hmatch
      rw [List.mem_reverse, mem_transTriples] at ht
      simp only [Bool.and_eq_true, beq_iff_eq] at hmatch
      obtain ⟨ht1, ht2, ht3, _⟩ := ht
      apply ht3
      rw [hmatch.1, hmatch.2]
      exact heq
    rw [hnone]
    exact heq
  · have hmem : (s, c, G.delta s c) ∈ (transTriples G).reverse := by
      rw [List.mem_reverse, mem_transTriples]
      exact ⟨hs, hc, heq, rfl⟩
    cases hfind : (transTriples G).reverse.find? (fun t => t.1 == s && t.2.1 == c) with
    | none =>
      exfalso
      rw [List.find?_eq_none] at hfind
      exact hfind _ hmem (by simp)
    | some t =>
      have hp := List.find?_some hfind
      have hmem' := List.mem_of_find?_eq_some hfind
      rw [List.mem_reverse, mem_transTriples] at hmem'
      simp only [Bool.and_eq_true, beq_iff_eq] at hp
      show t.2.2 = G.delta s c
      rw [hmem'.2.2.2, hp.1, hp.2]

theorem accepting_n1 (G : MinDFA) (h1 : G.n = 1) :
    accepting G = if G.label 0 = true then {0} else ∅ := by
  ext s
  constructor
  · intro hs
    rw [mem_accepting] at hs
    have hs0 : s = 0 := by omega
    subst hs0
    simp [hs.2]
  · intro hs
    by_cases hl : G.label 0 = true
    · simp [hl] at hs
      subst hs
      exact mem_accepting.mpr ⟨by omega, hl⟩
    · simp [hl] at hs

theorem specify_rejecting_n1 (G : MinDFA) (h1 : G.n = 1) :
    specify_rejecting G = G.label 0 := by
  cases hl : G.label 0 <;>
    simp [specify_rejecting, accepting_n1 G h1, hl, h1]

theorem encRest_n1 (G : MinDFA) (h1 : G.n = 1)
    (hdelta : ∀ s, s < G.n → ∀ i, i < G.m → G.delta s i < G.n) :
    encRest G = [] := by
  have hsb1 : bits_needed G.n = 0 := by rw [h1]; rfl
  rw [encRest, transTriples_nil G h1 hdelta, hsb1, natToBits_zero, idxFlat,
    indicies_eq_empty_of_n_eq_one G h1]
  simp

theorem foldl_delta_lt (G : MinDFA)
    (hdelta : ∀ s, s < G.n → ∀ i, i < G.m → G.delta s i < G.n) :
    ∀ (w : List Nat), (∀ c ∈ w, c < G.m) → ∀ s, s < G.n → w.foldl G.delta s < G.n := by
  intro w
  induction w with
  | nil => intro _ s hs; exact hs
  | cons c tl ih =>
    intro hw s hs
    rw [List.foldl_cons]
    exact ih (fun u hu => hw u (by simp [hu])) _ (hdelta s hs c (hw c (by simp)))

theorem from_int_encBody (G : MinDFA) (hn : 1 ≤ G.n) (hm : 2 ≤ G.m)
    (hdelta : ∀ s, s < G.n → ∀ i, i < G.m → G.delta s i < G.n)
    (hlab : 2 ≤ G.n →
      (∃ s, s < G.n ∧ G.label s = true) ∧ (∃ s, s < G.n ∧ G.label s = false)) :
    ∃ D, from_int (ba2int (encBody G)) (some (List.range G.m)) = some D ∧
      ∀ w : List Nat, (∀ c ∈ w, c < G.m) → D.labelW w = G.labelW w := by
  rw [from_int, parseHeader_encBody G hn hm]
  simp only [Option.some_bind]
  by_cases h2 : 2 ≤ G.n
  · have hsb : 0 < bits_needed G.n := bits_needed_pos h2
    have hib : 0 < bits_needed G.m := bits_needed_pos hm
    have hcard : 1 ≤ (indicies G).card := indicies_nonempty G (hlab h2)
    have hcard2 : (indicies G).card - 1 < 2 ^ bits_needed G.n := by
      have hle := indicies_card_le G
      have := sub_one_lt_two_pow_bits_needed hn
      omega
    have hiclen : (indicies G).card - 1 + 1 = (indicies G).card := by omega
    have hread : readIndices (bits_needed G.n) ((indicies G).card)
        (idxFlat G (bits_needed G.n) ++
          (transTriples G).flatMap (encTriple (bits_needed G.n) (bits_needed G.m)))
        = some ((indicies G).sort (· ≤ ·),
            (transTriples G).flatMap (encTriple (bits_needed G.n) (bits_needed G.m))) := by
      have hlen : ((indicies G).sort (· ≤ ·)).length = (indicies G).card :=
        Finset.length_sort _
      rw [idxFlat, ← hlen]
      exact readIndices_append _ hsb _ (fun v hv => (indicesBits_hyp G v hv).2) _
    have hparse : parseTransitions (List.range G.m) (bits_needed G.n) (bits_needed G.m)
        ((transTriples G).flatMap (encTriple (bits_needed G.n) (bits_needed G.m)))
        = some (transTriples G) := by
      apply parseTransitions_range _ _ _ hsb hib
      intro t ht
      rw [mem_transTriples] at ht
      obtain ⟨ht1, ht2, _, ht4⟩ := ht
      refine ⟨lt_of_lt_of_le ht1 (le_two_pow_bits_needed (by omega)), ht2,
        lt_of_lt_of_le ht2 (le_two_pow_bits_needed (by omega)), ?_⟩
      rw [ht4]
      exact lt_of_lt_of_le (hdelta _ ht1 _ ht2) (le_two_pow_bits_needed (by omega))
    rcases hE : encRest G with _ | ⟨b, tl⟩
    · exfalso
      have hElen := congrArg List.length hE
      rw [encRest] at hElen
      simp [natToBits_length] at hElen
      omega
    · simp only [buildDFA, hE]
      rw [← hE, encRest]
      simp only [List.take_left' (natToBits_length (bits_needed G.n) ((indicies G).card - 1)),
        List.drop_left' (natToBits_length (bits_needed G.n) ((indicies G).card - 1)),
        ba2intOpt_natToBits (bits_needed G.n) ((indicies G).card - 1) hsb hcard2,
        hiclen, hread, hparse]
      refine ⟨_, rfl, ?_⟩
      intro w hw
      have hfold : ∀ (u : List Nat), (∀ c ∈ u, c < G.m) → ∀ s, s < G.n →
          u.foldl (fun s c => lookupTrans (transTriples G) s c) s = u.foldl G.delta s := by
        intro u
        induction u with
        | nil => intro _ s _; rfl
        | cons c tlw ih =>
          intro hu s hs
          rw [List.foldl_cons, List.foldl_cons,
            lookupTrans_transTriples G s c hs (hu c (by simp))]
          exact ih (fun x hx => hu x (by simp [hx])) _ (hdelta s hs c (hu c (by simp)))
      have hstate : w.foldl G.delta 0 < G.n := foldl_delta_lt G hdelta w hw 0 (by omega)
      have hlabel : ∀ s, s < G.n →
          ((((indicies G).sort (· ≤ ·)).contains s) ^^ specify_rejecting G) = G.label s := by
        intro s hs
        have hcontains : (((indicies G).sort (· ≤ ·)).contains s)
            = decide (s ∈ indicies G) := by
          by_cases hsi : s ∈ indicies G <;> simp [hsi, Finset.mem_sort]
        rw [hcontains, indicies]
        cases hsr : specify_rejecting G
        · simp only [Bool.false_eq_true, if_false, Bool.xor_false]
          cases hl : G.label s
          · simp [mem_accepting, hl]
          · simp [mem_accepting, hs, hl]
        · simp only [if_true, Bool.xor_true]
          cases hl : G.label s
          · simp [Finset.mem_sdiff, mem_accepting, hs, hl]
          · simp [Finset.mem_sdiff, mem_accepting, hs, hl]
      rw [Decoded.labelW, MinDFA.labelW]
      show ((((indicies G).sort (· ≤ ·)).contains
          (w.foldl (fun s c => lookupTrans (transTriples G) s c) 0)) ^^ specify_rejecting G)
        = G.label (w.foldl G.delta 0)
      rw [hfold w hw 0 (by omega), hlabel _ hstate]
  · have h1 : G.n = 1 := by omega
    have hrest : encRest G = [] := encRest_n1 G h1 hdelta
    simp only [buildDFA, hrest, h1, eq_self_iff_true, if_true]
    refine ⟨_, rfl, ?_⟩
    intro w hw
    have hstate : w.foldl G.delta 0 < G.n := foldl_delta_lt G hdelta w hw 0 (by omega)
    have hs0 : w.foldl G.delta 0 = 0 := by omega
    rw [MinDFA.labelW, hs0]
    show (singleStateDFA (specify_rejecting G) (List.range G.m)).labelW w = G.label 0
    simp [Decoded.labelW, singleStateDFA, specify_rejecting_n1 G h1]

theorem int2ba_zero_width (v : Int) : int2ba v 0 = none := by
  rw [int2ba]
  simp

theorem option_bind_const_none {α β : Type} (x : Option α) :
    (x.bind fun _ => (none : Option β)) = none := by
  cases x <;> rfl

theorem to_int_bits_some_imp_order (G : MinDFA) (ol il : Nat) (E : List Bool)
    (h : to_int_bits G ol il = some E) : 2 ≤ ol := by
  by_contra hc
  have hib0 : bits_needed ol = 0 := by
    rw [bits_needed, if_pos (by omega)]
  rw [to_int_bits] at h
  simp only [hib0, int2ba_zero_width, Option.map_none', Option.bind_eq_bind,
    Option.none_bind, option_bind_const_none, ite_self, Option.pure_def,
    Option.some_bind] at h
  exact Option.noConfusion h

theorem bits_needed_eq_clog (n : Nat) :
    bits_needed n = (if n < 2 then 0 else Nat.clog 2 n) := by
  rw [bits_needed]
  by_cases h : n < 2
  · simp [h]
  · rw [if_neg h, if_neg h]
    apply le_antisymm
    · rw [Nat.size_le]
      have := Nat.le_pow_clog (by norm_num : 1 < 2) n
      omega
    · rw [← Nat.le_pow_iff_clog_le (by norm_num : 1 < 2)]
      have := Nat.lt_size_self (n - 1)
      omega

/-- C1: for every Boolean-output automaton over a finite declared alphabet —
represented by its language `L` over the order-indexed alphabet together with
the minimized reindexed graph `G` that the external minimizer and converter
produce from it (spec §6 contract, `IsMinimizedReindexing`) — decoding the
integer produced by `to_int` with the same symbol order supplied to
`from_int` yields an automaton whose label on every finite word over the
alphabet equals the label `L` assigns to it. -/
theorem C1_roundtrip_language_equiv (L : List Nat → Bool) (G : MinDFA) (N : Nat)
    (hmin : IsMinimizedReindexing L G) (hN : MinDFA.to_int G = some N) :
    ∃ D, from_int N (some (List.range G.m)) = some D ∧
      ∀ w : List Nat, (∀ c ∈ w, c < G.m) → D.labelW w = L w := by
  obtain ⟨hn, hdelta, hequiv, hlab⟩ := hmin
  rw [MinDFA.to_int] at hN
  obtain ⟨E, hE, hEN⟩ := Option.map_eq_some'.mp hN
  have hm : 2 ≤ G.m := to_int_bits_some_imp_order G G.m G.m E hE
  rw [to_int_bits_eq_encBody G hn hm hdelta hlab] at hE
  have hEeq : E = encBody G := by
    injection hE with h
    exact h.symm
  obtain ⟨D, hD, hDw⟩ := from_int_encBody G hn hm hdelta hlab
  refine ⟨D, ?_, ?_⟩
  · rw [← hEN, hEeq]
    exact hD
  · intro w hw
    rw [hDw w hw, hequiv w hw]

/-- C1 witness: the two-state example graph encodes to 6987, and the decoded
automaton agrees with its language on every word over the alphabet. -/
theorem C1_witness :
    ∃ D, from_int 6987 (some (List.range exG.m)) = some D ∧
      ∀ w : List Nat, (∀ c ∈ w, c < exG.m) → D.labelW w = exG.labelW w :=
  C1_roundtrip_language_equiv exG.labelW exG 6987
    ⟨by decide, by decide, fun w _ => rfl, by decide⟩
    (by
      rw [MinDFA.to_int,
        to_int_bits_eq_encBody exG (by decide) (by decide) (by decide) (by decide),
        encBody, encRest, idxFlat, (by decide : indicies exG = {1}), Finset.sort_singleton]
      norm_num [ba2int, natToBits, transTriples, encTriple, specify_rejecting, accepting,
        exG, bits_needed, Nat.size, Nat.binaryRec, Nat.shiftRight]
      decide)

theorem parseHeader_none_inv (N : Nat) (h : ParsedHeader)
    (hp : parseHeader N none = some h) :
    h.inputsList = List.range h.n_inputs := by
  rw [parseHeader] at hp
  simp only [Option.bind_eq_bind] at hp
  obtain ⟨idx, hidx, hp⟩ := Option.bind_eq_some.mp hp
  by_cases hpos : idx > 0
  · rw [if_pos hpos] at hp
    rcases hba : ba2intOpt (List.take idx (List.drop (idx + 1) (List.drop 1 (int2baMin N))))
        with _ | v <;> simp only [hba, Option.none_bind, Option.some_bind] at hp
    · exact Option.noConfusion hp
    obtain ⟨idx2, hidx2, hp⟩ := Option.bind_eq_some.mp hp
    obtain ⟨u, hu, hp⟩ := Option.bind_eq_some.mp hp
    rcases henc : List.drop idx2 (List.drop (idx2 + 1)
        (List.drop idx (List.drop (idx + 1) (List.drop 1 (int2baMin N)))))
        with _ | ⟨sr, rest⟩ <;> simp only [henc] at hp
    · exact Option.noConfusion hp
    · obtain rfl := (Option.some.inj hp).symm
      rfl
  · rw [if_neg hpos] at hp
    simp only [Option.some_bind] at hp
    obtain ⟨idx2, hidx2, hp⟩ := Option.bind_eq_some.mp hp
    obtain ⟨u, hu, hp⟩ := Option.bind_eq_some.mp hp
    rcases henc : List.drop idx2 (List.drop (idx2 + 1)
        (List.drop (idx + 1) (List.drop 1 (int2baMin N))))
        with _ | ⟨sr, rest⟩ <;> simp only [henc] at hp
    · exact Option.noConfusion hp
    · obtain rfl := (Option.some.inj hp).symm
      rfl

theorem parseHeader_some_of_none (N : Nat) (l : List Nat) (h : ParsedHeader)
    (hp : parseHeader N none = some h) (hlen : h.n_inputs ≠ l.length) :
    parseHeader N (some l) = none := by
  rw [parseHeader] at hp ⊢
  simp only [Option.bind_eq_bind] at hp ⊢
  obtain ⟨idx, hidx, hp⟩ := Option.bind_eq_some.mp hp
  rw [hidx, Option.some_bind]
  by_cases hpos : idx > 0
  · rw [if_pos hpos] at hp ⊢
    rcases hba : ba2intOpt (List.take idx (List.drop (idx + 1) (List.drop 1 (int2baMin N))))
        with _ | v <;> simp only [hba, Option.none_bind, Option.some_bind] at hp ⊢
    obtain ⟨idx2, hidx2, hp⟩ := Option.bind_eq_some.mp hp
    rw [hidx2, Option.some_bind]
    obtain ⟨u, hu, hp⟩ := Option.bind_eq_some.mp hp
    rw [hu, Option.some_bind]
    have hnu : h.n_inputs = u + 1 := by
      rcases henc : List.drop idx2 (List.drop (idx2 + 1)
          (List.drop idx (List.drop (idx + 1) (List.drop 1 (int2baMin N)))))
          with _ | ⟨sr, rest⟩
      · rw [henc] at hp
        exact Option.noConfusion hp
      · rw [henc] at hp
        obtain rfl := (Option.some.inj hp).symm
        rfl
    rw [if_neg (by omega)]
  · rw [if_neg hpos] at hp ⊢
    simp only [Option.some_bind] at hp ⊢
    obtain ⟨idx2, hidx2, hp⟩ := Option.bind_eq_some.mp hp
    rw [hidx2, Option.some_bind]
    obtain ⟨u, hu, hp⟩ := Option.bind_eq_some.mp hp
    rw [hu, Option.some_bind]
    have hnu : h.n_inputs = u + 1 := by
      rcases henc : List.drop idx2 (List.drop (idx2 + 1)
          (List.drop (idx + 1) (List.drop 1 (int2baMin N))))
          with _ | ⟨sr, rest⟩ <;> simp only [henc] at hp
      · exact Option.noConfusion hp
      · obtain rfl := (Option.some.inj hp).symm
        rfl
    rw [if_neg (by omega)]
    rfl

theorem buildDFA_inputs (h : ParsedHeader) (D : Decoded) (hb : buildDFA h = some D) :
    D.inputs = h.inputsList := by
  rcases hrest : h.rest with _ | ⟨b, tl⟩ <;> simp only [buildDFA, hrest] at hb
  · by_cases h1 : h.n_states = 1
    · rw [if_pos h1] at hb
      obtain rfl : _ = D := Option.some.injEq .. ▸ hb
      rfl
    · rw [if_neg h1] at hb
      exact Option.noConfusion hb
  · rcases hba : ba2intOpt ((b :: tl).take h.state_bits) with _ | v <;>
      simp only [hba] at hb
    · exact Option.noConfusion hb
    rcases hri : readIndices h.state_bits (v + 1) ((b :: tl).drop h.state_bits) with
        _ | ⟨acc, enc⟩ <;> simp only [hri] at hb
    · exact Option.noConfusion hb
    rcases hpt : parseTransitions h.inputsList h.state_bits h.input_bits enc with
        _ | ts <;> simp only [hpt] at hb
    · exact Option.noConfusion hb
    obtain rfl : _ = D := Option.some.injEq .. ▸ hb
    rfl

/-- C3: for every well-formed encoding — one the decoder accepts — the
decoded automaton labels each state by its membership in the decoded index
set XORed with the set-selection bit; every (state, symbol) pair with no
explicitly decoded transition triple self-loops; and when the bit stream is
exhausted immediately after the set-selection bit, the result is the
single-state automaton whose sole state carries the selection bit as its
label and self-loops on every symbol. -/
theorem C3_decoded_automaton_shape (N : Nat) (inputs? : Option (List Nat)) (D : Decoded)
    (hD : from_int N inputs? = some D) :
    ∃ h, parseHeader N inputs? = some h ∧
      (h.rest = [] →
        D = singleStateDFA h.specify_rejecting h.inputsList ∧
        D.label D.start = h.specify_rejecting ∧
        ∀ c, D.transition D.start c = D.start) ∧
      (∀ b tl, h.rest = b :: tl →
        ∃ v acc enc ts,
          ba2intOpt ((b :: tl).take h.state_bits) = some v ∧
          readIndices h.state_bits (v + 1) ((b :: tl).drop h.state_bits)
            = some (acc, enc) ∧
          parseTransitions h.inputsList h.state_bits h.input_bits enc = some ts ∧
          (∀ s, D.label s = (acc.contains s ^^ h.specify_rejecting)) ∧
          (∀ s c, (∀ t ∈ ts, ¬(t.1 = s ∧ t.2.1 = c)) → D.transition s c = s)) := by
  rw [from_int] at hD
  obtain ⟨h, hh, hb⟩ := Option.bind_eq_some.mp hD
  refine ⟨h, hh, ?_, ?_⟩
  · intro hrest
    simp only [buildDFA, hrest] at hb
    by_cases h1 : h.n_states = 1
    · rw [if_pos h1] at hb
      obtain rfl : _ = D := Option.some.injEq .. ▸ hb
      refine ⟨rfl, rfl, ?_⟩
      intro c
      cases h.specify_rejecting <;> rfl
    · rw [if_neg h1] at hb
      exact Option.noConfusion hb
  · intro b tl hrest
    simp only [buildDFA, hrest] at hb
    rcases hba : ba2intOpt ((b :: tl).take h.state_bits) with _ | v <;>
      simp only [hba] at hb
    · exact Option.noConfusion hb
    rcases hri : readIndices h.state_bits (v + 1) ((b :: tl).drop h.state_bits) with
        _ | ⟨acc, enc⟩ <;> simp only [hri] at hb
    · exact Option.noConfusion hb
    rcases hpt : parseTransitions h.inputsList h.state_bits h.input_bits enc with
        _ | ts <;> simp only [hpt] at hb
    · exact Option.noConfusion hb
    obtain rfl : _ = D := Option.some.injEq .. ▸ hb
    refine ⟨v, acc, enc, ts, rfl, hri, hpt, fun s => rfl, ?_⟩
    intro s c hnone
    show lookupTrans ts s c = s
    rw [lookupTrans]
    have hfind : ts.reverse.find? (fun t => t.1 == s && t.2.1 == c) = none := by
      rw [List.find?_eq_none]
      intro t ht hmatch
      rw [List.mem_reverse] at ht
      simp only [Bool.and_eq_true, beq_iff_eq] at hmatch
      exact hnone t ht hmatch
    rw [hfind]

/-- C3 witness: the single-state encoding 42 decodes through the exhausted
branch to the one-state automaton with a clear selection bit. -/
theorem C3_witness :
    ∃ h, parseHeader 42 none = some h ∧
      (h.rest = [] →
        singleStateDFA false [0, 1] = singleStateDFA h.specify_rejecting h.inputsList ∧
        (singleStateDFA false [0, 1]).label (singleStateDFA false [0, 1]).start
          = h.specify_rejecting ∧
        ∀ c, (singleStateDFA false [0, 1]).transition (singleStateDFA false [0, 1]).start c
          = (singleStateDFA false [0, 1]).start) ∧
      (∀ b tl, h.rest = b :: tl →
        ∃ v acc enc ts,
          ba2intOpt ((b :: tl).take h.state_bits) = some v ∧
          readIndices h.state_bits (v + 1) ((b :: tl).drop h.state_bits)
            = some (acc, enc) ∧
          parseTransitions h.inputsList h.state_bits h.input_bits enc = some ts ∧
          (∀ s, (singleStateDFA false [0, 1]).label s
            = (acc.contains s ^^ h.specify_rejecting)) ∧
          (∀ s c, (∀ t ∈ ts, ¬(t.1 = s ∧ t.2.1 = c)) →
            (singleStateDFA false [0, 1]).transition s c = s)) :=
  C3_decoded_automaton_shape 42 none (singleStateDFA false [0, 1])
    (by
      simp [from_int, parseHeader, int2baMin, Nat.log2, natToBits, findZero, ba2intOpt,
        ba2int, buildDFA, singleStateDFA, List.range_succ])

/-- C9: decoding without an explicit inputs sequence gives an automaton whose
alphabet is the integer range `0 .. m-1` of the decoded input count — not the
alphabet of the originally encoded automaton — and decoding with a supplied
inputs sequence fails when its length differs from the decoded count. -/
theorem C9_default_inputs_and_length_check :
    (∀ N D, from_int N none = some D →
      ∃ h, parseHeader N none = some h ∧ D.inputs = List.range h.n_inputs) ∧
    (∀ N (l : List Nat) h, parseHeader N none = some h → h.n_inputs ≠ l.length →
      from_int N (some l) = none) := by
  constructor
  · intro N D hD
    rw [from_int] at hD
    obtain ⟨h, hh, hb⟩ := Option.bind_eq_some.mp hD
    refine ⟨h, hh, ?_⟩
    rw [buildDFA_inputs h D hb, parseHeader_none_inv N h hh]
  · intro N l h hp hlen
    rw [from_int, parseHeader_some_of_none N l h hp hlen]
    rfl

/-- C9 witness: the encoding 42 decodes with default inputs `range 2`, and
decoding it against a one-element inputs sequence fails. -/
theorem C9_witness :
    (∃ h, parseHeader 42 none = some h ∧
      (singleStateDFA false [0, 1]).inputs = List.range h.n_inputs) ∧
    from_int 42 (some [5]) = none :=
  ⟨C9_default_inputs_and_length_check.1 42 (singleStateDFA false [0, 1])
      (by
        simp [from_int, parseHeader, int2baMin, Nat.log2, natToBits, findZero, ba2intOpt,
          ba2int, buildDFA, singleStateDFA, List.range_succ]),
    C9_default_inputs_and_length_check.2 42 [5] exHdr1
      (by
        simp [parseHeader, int2baMin, Nat.log2, natToBits, findZero, ba2intOpt,
          ba2int, exHdr1, List.range_succ])
      (by decide)⟩

/-- C4: in the bit encoding produced by `to_int` of a minimized graph, the
state-width field is a run of `bits_needed n` 1-bits followed by a 0-bit,
with `bits_needed n` equal to 0 for `n < 2` and `⌈log2 n⌉` otherwise; the
set-selection bit is set exactly when `2·|accepting| ≥ n + 1`, and in that
case the encoded index set is the rejecting set, which is never larger than
the accepting set. -/
theorem C4_header_and_selection (G : MinDFA) (E : List Bool)
    (hn : 1 ≤ G.n)
    (hdelta : ∀ s, s < G.n → ∀ i, i < G.m → G.delta s i < G.n)
    (hlab : 2 ≤ G.n →
      (∃ s, s < G.n ∧ G.label s = true) ∧ (∃ s, s < G.n ∧ G.label s = false))
    (hE : to_int_bits G G.m G.m = some E) :
    (∃ rest, E = true :: (List.replicate (bits_needed G.n) true ++ false :: rest)) ∧
    bits_needed G.n = (if G.n < 2 then 0 else Nat.clog 2 G.n) ∧
    (specify_rejecting G = true ↔ 2 * (accepting G).card ≥ G.n + 1) ∧
    (specify_rejecting G = true →
      indicies G = Finset.range G.n \ accepting G ∧
        (indicies G).card ≤ (accepting G).card) := by
  have hm : 2 ≤ G.m := to_int_bits_some_imp_order G G.m G.m E hE
  rw [to_int_bits_eq_encBody G hn hm hdelta hlab] at hE
  have hEeq : E = encBody G := by
    injection hE with h
    exact h.symm
  refine ⟨⟨_, by rw [hEeq, encBody]⟩, bits_needed_eq_clog G.n, ?_, ?_⟩
  · simp [specify_rejecting]
  · intro hsr
    have hsub := accepting_subset G
    refine ⟨by rw [indicies, if_pos hsr], ?_⟩
    have hcard : (Finset.range G.n \ accepting G).card = G.n - (accepting G).card := by
      rw [Finset.card_sdiff hsub, Finset.card_range]
    have hsr' : 2 * (accepting G).card ≥ G.n + 1 := by
      have hiff : specify_rejecting G = true ↔ 2 * (accepting G).card ≥ G.n + 1 := by
        simp [specify_rejecting]
      exact hiff.mp hsr
    have hle : (accepting G).card ≤ G.n := by
      have := Finset.card_le_card hsub
      simpa using this
    rw [indicies, if_pos hsr, hcard]
    omega

/-- C4 witness: instantiated on the two-state example graph. -/
theorem C4_witness :
    (∃ rest, [true, true, false, true, true, false, true, false, false, true,
        false, true, true]
      = true :: (List.replicate (bits_needed exG.n) true ++ false :: rest)) ∧
    bits_needed exG.n = (if exG.n < 2 then 0 else Nat.clog 2 exG.n) ∧
    (specify_rejecting exG = true ↔ 2 * (accepting exG).card ≥ exG.n + 1) ∧
    (specify_rejecting exG = true →
      indicies exG = Finset.range exG.n \ accepting exG ∧
        (indicies exG).card ≤ (accepting exG).card) :=
  C4_header_and_selection exG
    [true, true, false, true, true, false, true, false, false, true, false, true, true]
    (by decide) (by decide) (by decide)
    (by
      rw [to_int_bits_eq_encBody exG (by decide) (by decide) (by decide) (by decide),
        encBody, encRest, idxFlat, (by decide : indicies exG = {1}), Finset.sort_singleton]
      norm_num [natToBits, transTriples, encTriple, specify_rejecting, accepting,
        exG, bits_needed, Nat.size, Nat.binaryRec, Nat.shiftRight]
      decide)

/-- Membership in the Boolean output set is exactly being a `bool` value. -/
theorem mem_boolSet {v : Val} : v ∈ boolSet ↔ ∃ b, v = Val.bool b := by
  cases v with
  | bool b => cases b <;> simp [boolSet]
  | nat n => simp [boolSet]

/-- A fold of the product transition function is the pair of folds. -/
theorem foldl_pair {S T α : Type} (f : S → α → S) (g : T → α → T) :
    ∀ (w : List α) (s : S) (t : T),
      w.foldl (fun p c => (f p.1 c, g p.2 c)) (s, t) = (w.foldl f s, w.foldl g t) := by
  intro w
  induction w with
  | nil => intro s t; rfl
  | cons c w ih => intro s t; exact ih (f s c) (g t c)

/-- With matching inputs the product construction succeeds and labels every
word by `op` of the operands' labels. -/
theorem binOp_ok {S T α : Type} [DecidableEq α] (A : DFA S α) (B : DFA T α)
    (op : Val → Val → Val) (hI : A.inputs = B.inputs) :
    ∃ C : DFA (S × T) α, A.binOp B op = .ok C ∧
      ∀ w : List α, C.label_of w = op (A.label_of w) (B.label_of w) := by
  refine ⟨{ start := (A.start, B.start), inputs := A.inputs,
            transition := fun s c => (A.transition s.1 c, B.transition s.2 c),
            outputs := A.outputs ∪ B.outputs,
            label := fun s => op (A.label s.1) (B.label s.2) }, ?_, ?_⟩
  · rw [DFA.binOp, if_neg (by simp [hI])]
  · intro w
    simp only [DFA.label_of, DFA.transitionW, foldl_pair]

/-- C2: for Boolean-output automata over a shared declared alphabet the
combinators compute the pointwise boolean algebra of the operands' word
labels: conjunction for `&`, disjunction for `|`, symmetric difference for
`^`, and negation for `~`. -/
theorem C2_combinator_algebra {S T α : Type} [DecidableEq α]
    (A : DFA S α) (B : DFA T α)
    (hA : A.outputs ⊆ boolSet)
    (hAl : ∀ s, A.label s ∈ boolSet) (hBl : ∀ t, B.label t ∈ boolSet)
    (hI : A.inputs = B.inputs) (w : List α) :
    (∃ C, A.andOp B = .ok C ∧
      C.label_of w = Val.bool ((A.label_of w).truthy && (B.label_of w).truthy)) ∧
    (∃ C, A.orOp B = .ok C ∧
      C.label_of w = Val.bool ((A.label_of w).truthy || (B.label_of w).truthy)) ∧
    (∃ C, A.xorOp B = .ok C ∧
      C.label_of w = Val.bool ((A.label_of w).truthy ^^ (B.label_of w).truthy)) ∧
    (∃ A2, A.invert = .ok A2 ∧
      A2.label_of w = Val.bool (!(A.label_of w).truthy)) := by
  obtain ⟨a, ha⟩ := mem_boolSet.mp (hAl (A.transitionW w))
  obtain ⟨b, hb⟩ := mem_boolSet.mp (hBl (B.transitionW w))
  have hA2 : A.label_of w = Val.bool a := by rw [DFA.label_of, ha]
  have hB2 : B.label_of w = Val.bool b := by rw [DFA.label_of, hb]
  refine ⟨?_, ?_, ?_, ?_⟩
  · obtain ⟨C, hC, hCl⟩ := binOp_ok A B pyAnd hI
    refine ⟨C, ?_, ?_⟩
    · rw [DFA.andOp, boolean_only, if_pos hA, hC]
    · rw [hCl w, hA2, hB2]; rfl
  · obtain ⟨C, hC, hCl⟩ := binOp_ok A B pyOr hI
    refine ⟨C, ?_, ?_⟩
    · rw [DFA.orOp, boolean_only, if_pos hA, hC]
    · rw [hCl w, hA2, hB2]; rfl
  · obtain ⟨C, hC, hCl⟩ := binOp_ok A B pyXor hI
    refine ⟨C, ?_, ?_⟩
    · rw [DFA.xorOp, boolean_only, if_pos hA, hC]
    · rw [hCl w, hA2, hB2]; rfl
  · refine ⟨{ A with label := fun s => pyNot (A.label s) }, ?_, ?_⟩
    · rw [DFA.invert, boolean_only, if_pos hA]
    · show pyNot (A.label (A.transitionW w)) = Val.bool (!(A.label_of w).truthy)
      rw [ha, hA2]
      rfl

/-- C2 witness: the laws at the concrete Boolean automata on the word `[1]`. -/
theorem C2_witness :
    (∃ C, exA.andOp exB = .ok C ∧
      C.label_of [1] = Val.bool ((exA.label_of [1]).truthy && (exB.label_of [1]).truthy)) ∧
    (∃ C, exA.orOp exB = .ok C ∧
      C.label_of [1] = Val.bool ((exA.label_of [1]).truthy || (exB.label_of [1]).truthy)) ∧
    (∃ C, exA.xorOp exB = .ok C ∧
      C.label_of [1] = Val.bool ((exA.label_of [1]).truthy ^^ (exB.label_of [1]).truthy)) ∧
    (∃ A2, exA.invert = .ok A2 ∧
      A2.label_of [1] = Val.bool (!(exA.label_of [1]).truthy)) :=
  C2_combinator_algebra exA exB (by decide) (by decide) (by decide) (by decide) [1]

/-- C5: the claim says a symbol order enumerating exactly the declared
alphabet is accepted; line 69 of the source tests `set(input_order) <
self.inputs`, a proper-subset test, so an exact cover fails the test and
`to_int` raises the missing-inputs error instead of encoding. -/
theorem C5_exact_cover_order_rejected {S α : Type} [DecidableEq α]
    (A : DFA S α) (I : Finset α) (ord : List α) (minG : MinDFA)
    (hbool : A.outputs ⊆ boolSet) (hI : A.inputs = some I)
    (hcover : ord.toFinset = I) :
    A.to_int (some ord) minG = .error .someInputsMissing := by
  rw [DFA.to_int.eq_def, boolean_only, if_pos hbool]
  simp only [hI]
  rw [if_pos (show ¬(ord.toFinset ⊂ I) from by
    rw [hcover]
    exact fun h2 => (Finset.ssubset_def.mp h2).2 (Finset.Subset.refl I))]

/-- C5 witness: the order `[0, 1]` enumerates the alphabet `{0, 1}` of the
concrete automaton exactly, yet `to_int` reports missing inputs. -/
theorem C5_witness :
    ([0, 1] : List Nat).toFinset = ({0, 1} : Finset Nat) ∧
    exA.to_int (some [0, 1]) exG1 = .error .someInputsMissing :=
  ⟨by decide,
   C5_exact_cover_order_rejected exA {0, 1} [0, 1] exG1 (by decide) rfl (by decide)⟩

/-- C6: the `run` coroutine: with the label flag clear each resumption
consumes one symbol and yields the state reached, one yield per symbol after
the initial one; with the flag set the source evaluates `self.dfa._label`
(line 214), but `DFA` declares no attribute `dfa`, so the coroutine fails
with an AttributeError instead of yielding labels. -/
theorem C6_run_label_flag {S α : Type} (A : DFA S α) (start : Option S)
    (letters : List α) :
    A.runYields false start letters
      = .ok ((A.traceStates letters (start.getD A.start)).map RunYield.state) ∧
    (A.traceStates letters (start.getD A.start)).length = letters.length + 1 ∧
    A.runYields true start letters = .error .attributeError :=
  ⟨rfl, by rw [DFA.traceStates, List.length_scanl], rfl⟩

/-- C8: the `boolean_only` decorator: on an automaton whose outputs are not a
subset of `{True, False}`, complement, the three binary combinators, the
accepting-word search and the integer codec all fail with the not-Boolean
error; when the outputs are Boolean the guard passes and none of these
operations produces that error. -/
theorem C8_boolean_only_guard {S T α : Type} [DecidableEq S] [DecidableEq T]
    [DecidableEq α] [Fintype S] (A : DFA S α) (B : DFA T α)
    (inputsList : List α) (input_order : Option (List α)) (minG : MinDFA) :
    (¬A.outputs ⊆ boolSet →
      A.invert = .error .notBoolean ∧
      A.xorOp B = .error .notBoolean ∧
      A.orOp B = .error .notBoolean ∧
      A.andOp B = .error .notBoolean ∧
      A.find_accepting_word inputsList = .error .notBoolean ∧
      A.to_int input_order minG = .error .notBoolean) ∧
    (A.outputs ⊆ boolSet →
      A.invert ≠ .error .notBoolean ∧
      A.xorOp B ≠ .error .notBoolean ∧
      A.orOp B ≠ .error .notBoolean ∧
      A.andOp B ≠ .error .notBoolean ∧
      A.find_accepting_word inputsList ≠ .error .notBoolean ∧
      A.to_int input_order minG ≠ .error .notBoolean) := by
  constructor
  · intro hb
    exact ⟨by rw [DFA.invert, boolean_only, if_neg hb],
      by rw [DFA.xorOp, boolean_only, if_neg hb],
      by rw [DFA.orOp, boolean_only, if_neg hb],
      by rw [DFA.andOp, boolean_only, if_neg hb],
      by rw [DFA.find_accepting_word, boolean_only, if_neg hb],
      by rw [DFA.to_int.eq_def, boolean_only, if_neg hb]⟩
  · intro hb
    refine ⟨?_, ?_, ?_, ?_, ?_, ?_⟩
    · rw [DFA.invert, boolean_only, if_pos hb]
      simp
    · rw [DFA.xorOp, boolean_only, if_pos hb, DFA.binOp]
      split <;> simp
    · rw [DFA.orOp, boolean_only, if_pos hb, DFA.binOp]
      split <;> simp
    · rw [DFA.andOp, boolean_only, if_pos hb, DFA.binOp]
      split <;> simp
    · rw [DFA.find_accepting_word, boolean_only, if_pos hb]
      rcases A.inputs with _ | I
      · simp
      · rcases hf : fawGo A.label A.transition inputsList (Fintype.card S + 1) A.start ∅
          with ⟨_ | _, v, wd⟩ <;> simp [hf]
    · rw [DFA.to_int.eq_def, boolean_only, if_pos hb]
      rcases input_order with _ | ord <;> rcases A.inputs with _ | I
      · simp
      · rcases ht : to_int_bits minG I.card I.card with _ | e <;> simp [ht]
      · simp
      · by_cases hss : ord.toFinset ⊂ I
        · rcases ht : to_int_bits minG ord.length I.card with _ | e <;> simp [hss, ht]
        · simp [hss]

/-- C8 witness: the guard fires on the automaton with output set `{7}` and
stays silent on the Boolean one. -/
theorem C8_witness :
    (exBad.invert = .error .notBoolean ∧
      exBad.xorOp exB = .error .notBoolean ∧
      exBad.orOp exB = .error .notBoolean ∧
      exBad.andOp exB = .error .notBoolean ∧
      exBad.find_accepting_word [0, 1] = .error .notBoolean ∧
      exBad.to_int none exG1 = .error .notBoolean) ∧
    (exA.invert ≠ .error .notBoolean ∧
      exA.xorOp exB ≠ .error .notBoolean ∧
      exA.orOp exB ≠ .error .notBoolean ∧
      exA.andOp exB ≠ .error .notBoolean ∧
      exA.find_accepting_word [0, 1] ≠ .error .notBoolean ∧
      exA.to_int none exG1 ≠ .error .notBoolean) :=
  ⟨(C8_boolean_only_guard exBad exB [0, 1] none exG1).1 (by decide),
   (C8_boolean_only_guard exA exB [0, 1] none exG1).2 (by decide)⟩

/-- C10: when the start state of a Boolean-output automaton with a declared
alphabet is labelled true, the recursive search succeeds before exploring any
transition and `find_accepting_word` returns the empty word, not an absent
result. -/
theorem C10_accepting_start_empty_word {S α : Type} [DecidableEq S] [Fintype S]
    (A : DFA S α) (inputsList : List α) (I : Finset α)
    (hbool : A.outputs ⊆ boolSet) (hI : A.inputs = some I)
    (hstart : (A.label A.start).truthy = true) :
    A.find_accepting_word inputsList = .ok (some []) := by
  rw [DFA.find_accepting_word, boolean_only, if_pos hbool]
  simp only [hI]
  rw [fawGo, if_pos hstart]

/-- C10 witness: the concrete automaton with an accepting start yields the
empty word. -/
theorem C10_witness : exA.find_accepting_word [0, 1] = .ok (some []) :=
  C10_accepting_start_empty_word exA [0, 1] {0, 1} (by decide) rfl (by decide)

/-- The initial visited set is contained in the DFS result. -/
theorem dfsLoop_subset {S α : Type} [DecidableEq S] [Fintype S] (trans : S → α → S)
    (l : List α) (visited : Finset S) (stack : List S) :
    visited ⊆ dfsLoop trans l visited stack := by
  induction visited, stack using dfsLoop.induct trans l with
  | case1 visited => rw [dfsLoop]; simp
  | case2 visited stack h hv ih =>
      rw [dfsLoop, dif_neg h, dif_pos hv]
      exact ih
  | case3 visited stack h hv ih =>
      rw [dfsLoop, dif_neg h, dif_neg hv]
      exact fun x hx => ih (Finset.mem_insert_of_mem hx)

/-- Every state on the initial stack ends up in the DFS result. -/
theorem dfsLoop_mem_stack {S α : Type} [DecidableEq S] [Fintype S] (trans : S → α → S)
    (l : List α) (visited : Finset S) (stack : List S) :
    ∀ s ∈ stack, s ∈ dfsLoop trans l visited stack := by
  induction visited, stack using dfsLoop.induct trans l with
  | case1 visited => intro s hs; simp at hs
  | case2 visited stack h hv ih =>
      intro s hs
      rw [dfsLoop, dif_neg h, dif_pos hv]
      rw [← List.dropLast_append_getLast h] at hs
      rcases List.mem_append.mp hs with h2 | h2
      · exact ih s h2
      · replace h2 : s = stack.getLast h := by simpa using h2
        exact dfsLoop_subset trans l visited stack.dropLast (h2 ▸ hv)
  | case3 visited stack h hv ih =>
      intro s hs
      rw [dfsLoop, dif_neg h, dif_neg hv]
      rw [← List.dropLast_append_getLast h] at hs
      rcases List.mem_append.mp hs with h2 | h2
      · exact ih s (List.mem_append_left _ h2)
      · replace h2 : s = stack.getLast h := by simpa using h2
        exact dfsLoop_subset trans l _ _ (h2 ▸ Finset.mem_insert_self _ _)

/-- Soundness of the DFS: an invariant holding on the visited set and the
stack and preserved by the transitions along `l` holds on the result. -/
theorem dfsLoop_sound {S α : Type} [DecidableEq S] [Fintype S] (trans : S → α → S)
    (l : List α) (R : S → Prop) (hstep : ∀ s, R s → ∀ c ∈ l, R (trans s c))
    (visited : Finset S) (stack : List S) :
    (∀ s ∈ visited, R s) → (∀ s ∈ stack, R s) →
    ∀ s ∈ dfsLoop trans l visited stack, R s := by
  induction visited, stack using dfsLoop.induct trans l with
  | case1 visited =>
      intro hvis _ s hs
      rw [dfsLoop] at hs
      simp at hs
      exact hvis s hs
  | case2 visited stack h hv ih =>
      intro hvis hstk s hs
      rw [dfsLoop, dif_neg h, dif_pos hv] at hs
      exact ih hvis (fun t ht => hstk t (List.dropLast_subset _ ht)) s hs
  | case3 visited stack h hv ih =>
      intro hvis hstk s hs
      rw [dfsLoop, dif_neg h, dif_neg hv] at hs
      refine ih ?_ ?_ s hs
      · intro t ht
        rcases Finset.mem_insert.mp ht with rfl | ht2
        · exact hstk _ (List.getLast_mem h)
        · exact hvis t ht2
      · intro t ht
        rcases List.mem_append.mp ht with ht2 | ht2
        · exact hstk t (List.dropLast_subset _ ht2)
        · obtain ⟨c, hc, rfl⟩ := List.mem_map.mp ht2
          exact hstep _ (hstk _ (List.getLast_mem h)) c hc

/-- Closure of the DFS result: if every visited state's successors lie in the
visited set or on the stack, the result is closed under the transitions
along `l`. -/
theorem dfsLoop_closed {S α : Type} [DecidableEq S] [Fintype S] (trans : S → α → S)
    (l : List α) (visited : Finset S) (stack : List S) :
    (∀ v ∈ visited, ∀ c ∈ l, trans v c ∈ visited ∨ trans v c ∈ stack) →
    ∀ v ∈ dfsLoop trans l visited stack, ∀ c ∈ l,
      trans v c ∈ dfsLoop trans l visited stack := by
  induction visited, stack using dfsLoop.induct trans l with
  | case1 visited =>
      intro hP v hv c hc
      rw [dfsLoop] at hv ⊢
      simp only [dif_pos] at hv ⊢
      rcases hP v hv c hc with h2 | h2
      · exact h2
      · simp at h2
  | case2 visited stack h hv ih =>
      intro hP
      rw [dfsLoop, dif_neg h, dif_pos hv]
      refine ih ?_
      intro v hvv c hc
      rcases hP v hvv c hc with h2 | h2
      · exact Or.inl h2
      · rw [← List.dropLast_append_getLast h] at h2
        rcases List.mem_append.mp h2 with h3 | h3
        · exact Or.inr h3
        · replace h3 : trans v c = stack.getLast h := by simpa using h3
          exact Or.inl (h3 ▸ hv)
  | case3 visited stack h hv ih =>
      intro hP
      rw [dfsLoop, dif_neg h, dif_neg hv]
      refine ih ?_
      intro v hvv c hc
      rcases Finset.mem_insert.mp hvv with rfl | hvv2
      · exact Or.inr (List.mem_append_right _ (List.mem_map.mpr ⟨c, hc, rfl⟩))
      · rcases hP v hvv2 c hc with h2 | h2
        · exact Or.inl (Finset.mem_insert_of_mem h2)
        · rw [← List.dropLast_append_getLast h] at h2
          rcases List.mem_append.mp h2 with h3 | h3
          · exact Or.inr (List.mem_append_left _ h3)
          · replace h3 : trans v c = stack.getLast h := by simpa using h3
            exact Or.inl (h3 ▸ Finset.mem_insert_self _ _)

/-- C7: with a declared alphabet enumerated by the search order, `states`
returns exactly the set of states reachable from the start state via finite
words over the alphabet; without a declared alphabet it stops at its
assertion instead of returning a result. -/
theorem C7_states_reachability {S α : Type} [DecidableEq S] [DecidableEq α]
    [Fintype S] (A : DFA S α) (l : List α) (I : Finset α) :
    (A.inputs = some I → l.toFinset = I →
      ∃ V, A.states l = .ok V ∧ ∀ s, s ∈ V ↔ ReachesVia A I s) ∧
    (A.inputs = none → A.states l = .error .assertionError) := by
  constructor
  · intro hI hl
    refine ⟨dfsLoop A.transition l ∅ [A.start], ?_, ?_⟩
    · rw [DFA.states, hI]
    · intro s
      constructor
      · intro hs
        refine dfsLoop_sound A.transition l (ReachesVia A I) ?_ ∅ [A.start] ?_ ?_ s hs
        · intro t ht c hc
          obtain ⟨w, hw, hfold⟩ := ht
          refine ⟨w ++ [c], ?_, ?_⟩
          · intro d hd
            rcases List.mem_append.mp hd with hd2 | hd2
            · exact hw d hd2
            · rw [List.mem_singleton.mp hd2, ← hl]
              exact List.mem_toFinset.mpr hc
          · rw [List.foldl_append, hfold]
            rfl
        · intro t ht
          simp at ht
        · intro t ht
          rw [List.mem_singleton.mp ht]
          exact ⟨[], by simp, rfl⟩
      · rintro ⟨w, hw, rfl⟩
        revert hw
        induction w using List.reverseRecOn with
        | nil =>
            intro _
            exact dfsLoop_mem_stack A.transition l ∅ [A.start] A.start
              (List.mem_singleton_self _)
        | append_singleton w c ihw =>
            intro hw
            rw [List.foldl_append]
            have hwmem : w.foldl A.transition A.start ∈ dfsLoop A.transition l ∅ [A.start] :=
              ihw (fun d hd => hw d (List.mem_append_left _ hd))
            have hc : c ∈ l := by
              rw [← List.mem_toFinset, hl]
              exact hw c (List.mem_append_right _ (List.mem_singleton_self _))
            exact dfsLoop_closed A.transition l ∅ [A.start]
              (by intro v hv; simp at hv) _ hwmem c hc
  · intro hI
    rw [DFA.states, hI]

/-- C7 witness: reachability of the two-state automaton along the order
`[0, 1]`, and the assertion failure of the automaton without an alphabet. -/
theorem C7_witness :
    (∃ V, exB.states [0, 1] = .ok V ∧ ∀ s, s ∈ V ↔ ReachesVia exB {0, 1} s) ∧
    exNoInputs.states [0, 1] = .error .assertionError :=
  ⟨(C7_states_reachability exB [0, 1] {0, 1}).1 rfl (by decide),
   (C7_states_reachability exNoInputs [0, 1] {0, 1}).2 rfl⟩

end DfaPy
